import Mathlib

/-
Verification development for the compression plugin in src/index.js.

The embedding is shallow: buffers are lists of bytes, the webpack
compilation is a record of assets, a cache and an error list, and the
asynchronous per-asset tasks of the compress pass are linearized into a
left fold (the code awaits the whole filter phase before any task runs,
every task only appends to the shared collections, and distinct tasks
write to distinct asset names and cache keys, so the fold is a faithful
linearization of the unbounded concurrency).

External collaborators (the webpack ModuleFilenameHelpers matcher, the
template engine compilation.getPath, the md5 hash over the serialized
filename function, and the resolved zlib algorithm) are parameters of
the pass, collected in the Env structure.  JavaScript floating-point
division in the ratio test is idealized as exact rational division; the
degenerate zero-length-buffer case follows the JavaScript semantics
(NaN comparisons are false, Infinity exceeds every finite ratio).
-/

namespace CompressionPlugin

/-- A byte buffer (Node Buffer); byte values are irrelevant to the claims,
so plain naturals are used. -/
abbrev Bytes := List Nat

/-- Everything before the first question mark of a string; models
filename.slice(0, filename.indexOf("?")) in the compress method. -/
def stripQuery (s : String) : String :=
  String.mk (s.data.takeWhile (fun c => c ≠ '?'))

/-- The part of a path after its last slash (Node path basename). -/
def basenameCore (cs : List Char) : List Char :=
  (cs.reverse.takeWhile (fun c => c ≠ '/')).reverse

/-- The extension of a basename, dot included: from the last dot,
empty when there is no dot or the only dot starts the basename.
Models Node path.extname on the basename. -/
def extnameCore (b : List Char) : List Char :=
  if '.' ∈ b then
    let suffixLen := (b.reverse.takeWhile (fun c => c ≠ '.')).length
    let dotIdx := b.length - suffixLen - 1
    if dotIdx = 0 then [] else b.drop dotIdx
  else []

/-- Node path.extname: extension of the last path segment, dot included. -/
def extname (s : String) : String :=
  String.mk (extnameCore (basenameCore s.data))

/-- Whether pat occurs as a contiguous substring of s; models
RegExp test for fixed literal alternatives. -/
def containsSub (s pat : String) : Bool :=
  (List.range (s.data.length + 1)).any (fun i => pat.data.isPrefixOf (s.data.drop i))

/-- Asset metadata: the compressed flag, the immutable flag and the
related map (relation kind to related asset name).  Only the fields the
compress method reads or writes are modelled. -/
structure AssetInfo where
  compressed : Bool
  immutable : Bool
  related : List (String × String)
  deriving DecidableEq, Repr

/-- A named asset of the compilation: name, byte content and metadata. -/
structure Asset where
  name : String
  buffer : Bytes
  info : AssetInfo
  deriving DecidableEq, Repr

/-- The algorithm option: a well-known name, or a caller-supplied
function represented by its serialized source text (the only use the
plugin makes of the function value besides calling it). -/
inductive Algorithm where
  | name (s : String)
  | fn (tag : String)
  deriving DecidableEq, Repr

/-- The filename option: a static template string, or a function
represented by its serialized source text. -/
inductive Filename where
  | str (s : String)
  | fn (tag : String)
  deriving DecidableEq, Repr

/-- The deleteOriginalAssets option: false / true / keep-source-map /
per-name predicate. -/
inductive DeleteOriginalAssets where
  | bool (b : Bool)
  | keepSourceMap
  | fn (p : String → Bool)

/-- A compression-option value: a number, or the params object of the
brotli family (a map from numeric parameter ids to numbers). -/
inductive OptValue where
  | num (n : Int)
  | params (m : List (Nat × Int))
  deriving DecidableEq, Repr

/-- A compressionOptions object: ordered key-value pairs, as a JavaScript
object literal. -/
abbrev COpts := List (String × OptValue)

/-- The resolved internal options of the plugin (this.options), with
minRatio written ratioMin. -/
structure Options where
  algorithm : Algorithm
  compressionOptions : COpts
  filename : Filename
  threshold : Nat
  ratioMin : ℚ
  deleteOriginalAssets : DeleteOriginalAssets

/-- JavaScript object spread of two objects: keys of a in order with
values overridden by b where present, then keys of b not in a. -/
def jsSpread (a b : COpts) : COpts :=
  a.map (fun p => match List.lookup p.1 b with
    | some v => (p.1, v)
    | none => p) ++
  b.filter (fun p => (List.lookup p.1 a).isNone)

/-- Members of the node:zlib module consulted by the constructor lookup
zlib[algorithm]; the principal callable exports and export objects (all
truthy values). -/
def zlibMembers : List String :=
  ["constants", "codes",
   "Deflate", "DeflateRaw", "Gunzip", "Gzip", "Inflate", "InflateRaw",
   "Unzip", "BrotliCompress", "BrotliDecompress",
   "createDeflate", "createDeflateRaw", "createGunzip", "createGzip",
   "createInflate", "createInflateRaw", "createUnzip",
   "createBrotliCompress", "createBrotliDecompress",
   "deflate", "deflateSync", "deflateRaw", "deflateRawSync",
   "gunzip", "gunzipSync", "gzip", "gzipSync",
   "inflate", "inflateSync", "inflateRaw", "inflateRawSync",
   "unzip", "unzipSync",
   "brotliCompress", "brotliCompressSync",
   "brotliDecompress", "brotliDecompressSync"]

/-- The algorithm-specific default tuning options of the constructor:
level Z_BEST_COMPRESSION (9) for the gzip and deflate family, and the
brotli params object with BROTLI_PARAM_QUALITY (1) set to
BROTLI_MAX_QUALITY (11); empty for every other name. -/
def defaultCompressionOptions (s : String) : COpts :=
  if s = "gzip" then [("level", OptValue.num 9)]
  else if s = "deflate" then [("level", OptValue.num 9)]
  else if s = "deflateRaw" then [("level", OptValue.num 9)]
  else if s = "brotliCompress" then [("params", OptValue.params [(1, 11)])]
  else []

/-- The options as the caller passes them, each field optional. -/
structure RawOptions where
  algorithm : Option Algorithm
  compressionOptions : Option COpts
  filename : Option Filename
  threshold : Option Nat
  ratioMin : Option ℚ
  deleteOriginalAssets : Option DeleteOriginalAssets

/-- A RawOptions value with every field absent (new CompressionPlugin()). -/
def RawOptions.empty : RawOptions :=
  { algorithm := none, compressionOptions := none, filename := none,
    threshold := none, ratioMin := none, deleteOriginalAssets := none }

/-- The constructed plugin: its resolved options.  The resolved zlib
callable itself is an external collaborator (the algo field of Env). -/
structure Plugin where
  options : Options

/-- The constructor: applies the defaults (algorithm gzip, filename
[path][base].gz or [path][base].br when the raw algorithm option is the
string brotliCompress, threshold 0, minRatio 0.8, no deletion), and for
a named algorithm resolves it in zlib - throwing when absent - and
merges the algorithm-specific default tuning options under the caller
options. -/
def construct (o : RawOptions) : Except String Plugin :=
  let algorithm := o.algorithm.getD (Algorithm.name "gzip")
  let compressionOptions := o.compressionOptions.getD []
  let filename := o.filename.getD
    (if o.algorithm = some (Algorithm.name "brotliCompress") then
      Filename.str "[path][base].br"
    else Filename.str "[path][base].gz")
  let threshold := o.threshold.getD 0
  let ratioMin := o.ratioMin.getD (4 / 5 : ℚ)
  let deleteOriginalAssets := o.deleteOriginalAssets.getD (DeleteOriginalAssets.bool false)
  match algorithm with
  | Algorithm.fn tag =>
    Except.ok ⟨{ algorithm := Algorithm.fn tag, compressionOptions, filename,
                 threshold, ratioMin, deleteOriginalAssets }⟩
  | Algorithm.name s =>
    if s ∈ zlibMembers then
      Except.ok ⟨{ algorithm := Algorithm.name s,
                   compressionOptions :=
                     jsSpread (defaultCompressionOptions s) compressionOptions,
                   filename, threshold, ratioMin, deleteOriginalAssets }⟩
    else
      Except.error ("Algorithm \"" ++ s ++ "\" is not found in \"zlib\"")

/-- The relation-name derivation of the compress method: for a function
algorithm, either a hash-derived name from the serialized filename
function, or ext-without-dot suffixed ed from the query-stripped
filename string; gzipped for the gzip name; otherwise the algorithm
name suffixed ed. -/
def relatedNameFor (hashFn : String → String) (algorithm : Algorithm)
    (filename : Filename) : String :=
  match algorithm with
  | Algorithm.fn _ =>
    match filename with
    | Filename.fn tag => "compression-function-" ++ hashFn tag
    | Filename.str s =>
      String.mk ((extname (stripQuery s)).data.drop 1) ++ "ed"
  | Algorithm.name s => if s = "gzip" then "gzipped" else s ++ "ed"

/-- The relation-name derivation as the specification words it: a total
function of the configuration with four cases (hash-derived name for
function algorithm and function filename; extension suffixed ed for
function algorithm and string filename; the literal gzipped for the
gzip name; the name suffixed ed otherwise). -/
def relatedNameSpec (hashFn : String → String) (algorithm : Algorithm)
    (filename : Filename) : String :=
  match algorithm, filename with
  | Algorithm.fn _, Filename.fn tag => "compression-function-" ++ hashFn tag
  | Algorithm.fn _, Filename.str s =>
    String.mk ((extname (stripQuery s)).data.drop 1) ++ "ed"
  | Algorithm.name s, _ => if s = "gzip" then "gzipped" else s ++ "ed"

/-- The identity of a cache item: the serialized object of name,
algorithm and compressionOptions, paired with the lazily hashed etag
of the source, modelled by content identity of the buffer. -/
structure CacheKey where
  name : String
  algorithm : Algorithm
  compressionOptions : COpts
  contentTag : Bytes
  deriving DecidableEq, Repr

/-- A cached value: the realized output source when the result was
accepted, and the raw compressed bytes. -/
structure CacheEntry where
  source : Option Bytes
  compressed : Option Bytes
  deriving DecidableEq, Repr

/-- The rejected-entry value: only the raw compressed bytes. -/
def entryOnly (c : Bytes) : CacheEntry :=
  { source := none, compressed := some c }

/-- The accepted-entry value: the realized output source and the
compressed bytes. -/
def entryFull (c : Bytes) : CacheEntry :=
  { source := some c, compressed := some c }

/-- The persistent item cache of the compilation. -/
abbrev Cache := List (CacheKey × CacheEntry)

/-- Key-value put with JavaScript object-assignment semantics: an
existing key keeps its position and gets the new value, a new key is
appended. -/
def assocPut {α β : Type} [DecidableEq α] (c : List (α × β)) (k : α) (e : β) :
    List (α × β) :=
  if (List.lookup k c).isSome then
    c.map (fun p => if p.1 = k then (k, e) else p)
  else c ++ [(k, e)]

/-- cacheItem.getPromise: the stored entry for a key, when present. -/
def cacheLookup (c : Cache) (k : CacheKey) : Option CacheEntry :=
  List.lookup k c

/-- cacheItem.storePromise: store an entry at a key, replacing any
previous entry for the same identity. -/
def cacheStore (c : Cache) (k : CacheKey) (e : CacheEntry) : Cache :=
  assocPut c k e

/-- The external collaborators of the compress pass: the hash over a
serialized filename function, the ModuleFilenameHelpers matcher bound
to the options, the compilation.getPath template engine, and the
resolved compression callable (runCompressionAlgorithm, result already
normalized to a buffer, failure as an error value). -/
structure Env where
  hashFn : String → String
  matchObj : String → Bool
  getPath : Filename → String → String
  algo : Bytes → Except String Bytes

/-- The per-asset work item built by the filter phase: captured name,
source, info, the lazily read buffer (none when the cache already holds
a realized output source), the cached output, the captured cache item
identity and the derived relation name. -/
structure Task where
  name : String
  source : Bytes
  info : AssetInfo
  buffer : Option Bytes
  output : CacheEntry
  key : CacheKey
  relatedName : String
  deriving DecidableEq, Repr

/-- The cache item identity the filter phase builds for an asset. -/
def cacheKeyOf (opts : Options) (a : Asset) : CacheKey :=
  { name := a.name, algorithm := opts.algorithm,
    compressionOptions := opts.compressionOptions, contentTag := a.buffer }

/-- The filter phase of the compress method for one asset: skip assets
already marked compressed, assets the matcher rejects, assets already
carrying the relation name, and - when the cache holds no realized
output source - assets whose buffer is below the threshold; otherwise
produce the task, reading the buffer only on that cache miss. -/
def mkTask (env : Env) (opts : Options) (cache : Cache) (a : Asset) : Option Task :=
  if a.info.compressed then none
  else if !(env.matchObj a.name) then none
  else
    let relatedName := relatedNameFor env.hashFn opts.algorithm opts.filename
    if (List.lookup relatedName a.info.related).isSome then none
    else
      let key := cacheKeyOf opts a
      let output := (cacheLookup cache key).getD { source := none, compressed := none }
      if output.source.isSome then
        some { name := a.name, source := a.buffer, info := a.info,
               buffer := none, output, key, relatedName }
      else if a.buffer.length < opts.threshold then none
      else
        some { name := a.name, source := a.buffer, info := a.info,
               buffer := some a.buffer, output, key, relatedName }

/-- The compilation state the pass reads and writes: the asset store,
the item cache and the build error list. -/
structure BuildState where
  assets : List Asset
  cache : Cache
  errors : List String
  deriving DecidableEq, Repr

/-- The names of the assets of a store. -/
def assetNames (as : List Asset) : List String :=
  as.map Asset.name

/-- compilation.getAsset by name. -/
def assetFind (as : List Asset) (n : String) : Option Asset :=
  as.find? (fun a => a.name = n)

/-- Object spread of one relation entry into a related map: an existing
key is overwritten in place, a new key is appended. -/
def relInsert (rel : List (String × String)) (k v : String) : List (String × String) :=
  assocPut rel k v

/-- Removal of a relation entry (the related sourceMap null update of
the keep-source-map branch). -/
def relRemove (rel : List (String × String)) (k : String) : List (String × String) :=
  rel.filter (fun p => !(p.1 = k))

/-- compilation.updateAsset with a related patch of one entry: the
asset keeps its name, its source is set to the passed source and the
entry is merged into its related map. -/
def updateAssetRelated (st : BuildState) (n : String) (src : Bytes)
    (k v : String) : BuildState :=
  { st with assets := st.assets.map (fun a =>
      if a.name = n then
        { a with buffer := src,
                 info := { a.info with related := relInsert a.info.related k v } }
      else a) }

/-- compilation.updateAsset with a related sourceMap null patch. -/
def clearSourceMap (st : BuildState) (n : String) (src : Bytes) : BuildState :=
  { st with assets := st.assets.map (fun a =>
      if a.name = n then
        { a with buffer := src,
                 info := { a.info with related := relRemove a.info.related "sourceMap" } }
      else a) }

/-- compilation.deleteAsset: the named asset is removed from the store. -/
def deleteAsset (st : BuildState) (n : String) : BuildState :=
  { st with assets := st.assets.filter (fun a => !(a.name = n)) }

/-- compilation.emitAsset: a fresh name is appended to the store; a
name already present is a conflict recorded as a build error (the
store keeps the existing asset). -/
def emitAsset (st : BuildState) (n : String) (src : Bytes) (info : AssetInfo) : BuildState :=
  if (assetFind st.assets n).isSome then
    { st with errors := st.errors ++
        ["Conflict: multiple assets emit different content to the same filename " ++ n] }
  else
    { st with assets := st.assets ++ [{ name := n, buffer := src, info := info }] }

/-- The ratio acceptance test compressed.length / buffer.length >
minRatio with JavaScript division semantics: for an empty buffer the
quotient is NaN (comparison false) when the compressed result is also
empty and Infinity (comparison true, minRatio being finite) otherwise;
for a nonempty buffer, exact rational comparison. -/
def ratioExceeds (c n : Nat) (r : ℚ) : Bool :=
  if n = 0 then (if c = 0 then false else true)
  else Rat.blt r (Rat.divInt (c : Int) (n : Int))

/-- The derived filename of an asset name: the template engine applied
to the filename option with the asset name as path data. -/
def newFilenameOf (env : Env) (opts : Options) (n : String) : String :=
  env.getPath opts.filename n

/-- The info of the emitted derived asset: marked compressed, immutable
only when the original was immutable and the filename is a static
template containing a name, base or file placeholder. -/
def newInfoOf (opts : Options) (t : Task) : AssetInfo :=
  { compressed := true,
    immutable := t.info.immutable &&
      (match opts.filename with
       | Filename.str s =>
         containsSub s "[name]" || containsSub s "[base]" || containsSub s "[file]"
       | Filename.fn _ => false),
    related := [] }

/-- The emission tail of a task: compute the derived filename by the
template engine, build the new info, apply the original-asset
disposition (delete / keep-source-map clear-then-delete / per-name
predicate / annotate the kept original with the relation entry), and
emit the derived asset. -/
def emitPhase (env : Env) (opts : Options) (st : BuildState) (t : Task)
    (outBytes : Bytes) : BuildState :=
  let newFilename := newFilenameOf env opts t.name
  let st1 :=
    match opts.deleteOriginalAssets with
    | DeleteOriginalAssets.bool true => deleteAsset st t.name
    | DeleteOriginalAssets.keepSourceMap =>
      deleteAsset (clearSourceMap st t.name t.source) t.name
    | DeleteOriginalAssets.fn p =>
      if p t.name then deleteAsset st t.name else st
    | DeleteOriginalAssets.bool false =>
      updateAssetRelated st t.name t.source t.relatedName newFilename
  emitAsset st1 newFilename outBytes (newInfoOf opts t)

/-- The tail of a task after the compressed bytes are available: the
ratio rejection stores only the raw compressed bytes and returns;
acceptance realizes the output source, stores the full entry and goes
on to emission. -/
def afterCompress (env : Env) (opts : Options) (st : BuildState) (t : Task)
    (c : Bytes) : BuildState :=
  if ratioExceeds c.length (t.buffer.getD []).length opts.ratioMin then
    { st with cache := cacheStore st.cache t.key { source := none, compressed := some c } }
  else
    emitPhase env opts
      { st with cache := cacheStore st.cache t.key { source := some c, compressed := some c } }
      t c

/-- One scheduled task of the compress pass: when the cached output
holds no realized source, obtain the compressed bytes (from the cached
raw bytes, or by invoking the algorithm - a failure is pushed onto the
compilation errors and the task returns), then apply the ratio policy;
with a realized source, go directly to emission. -/
def runTask (env : Env) (opts : Options) (st : BuildState) (t : Task) : BuildState :=
  match t.output.source with
  | none =>
    match t.output.compressed with
    | none =>
      match env.algo (t.buffer.getD []) with
      | Except.error e => { st with errors := st.errors ++ [e] }
      | Except.ok c => afterCompress env opts st t c
    | some c => afterCompress env opts st t c
  | some s => emitPhase env opts st t s

/-- The scheduled tasks in order; Promise.all over tasks that each only
append to the shared collections and write to pairwise distinct asset
names and cache keys, linearized as a left fold. -/
def runTasks (env : Env) (opts : Options) (st : BuildState) (ts : List Task) : BuildState :=
  ts.foldl (runTask env opts) st

/-- The whole compress pass: the filter phase over every current asset
against the current cache (all of it awaited before any task runs),
then every scheduled task. -/
def compressPass (env : Env) (opts : Options) (st : BuildState) : BuildState :=
  runTasks env opts st (st.assets.filterMap (mkTask env opts st.cache))

/-- The three-way fate of a task, a pure function of the task itself:
failure of the algorithm, rejection by the ratio policy with the raw
compressed bytes, or acceptance with the output bytes (stored grading
whether the fresh full entry is written, false on a cache hit whose
entry already held the realized source). -/
inductive Outcome where
  | fail (e : String)
  | reject (c : Bytes)
  | accept (stored : Bool) (src : Bytes)
  deriving DecidableEq, Repr

/-- The fate of a task under an environment and options. -/
def outcomeOf (env : Env) (opts : Options) (t : Task) : Outcome :=
  match t.output.source with
  | some s => Outcome.accept false s
  | none =>
    match (match t.output.compressed with
           | some c => Except.ok c
           | none => env.algo (t.buffer.getD [])) with
    | Except.error e => Outcome.fail e
    | Except.ok c =>
      if ratioExceeds c.length (t.buffer.getD []).length opts.ratioMin then
        Outcome.reject c
      else Outcome.accept true c

/-- The effect of an accepted task on its original asset when the
original is kept: the update of the asset with the captured source and
the relation entry to the derived filename. -/
def annotate (t : Task) (nf : String) (a : Asset) : Asset :=
  { a with buffer := t.source,
           info := { a.info with related := relInsert a.info.related t.relatedName nf } }

/-- The aggregate effect of a task list on the original assets when
originals are kept: each asset whose task was accepted is annotated,
every other asset is untouched. -/
def annotAll (env : Env) (opts : Options) (ts : List Task) (as : List Asset) : List Asset :=
  as.map (fun a =>
    match ts.find? (fun t => t.name = a.name) with
    | some t =>
      match outcomeOf env opts t with
      | Outcome.accept _ _ => annotate t (newFilenameOf env opts t.name) a
      | _ => a
    | none => a)

/-- The derived asset an accepted task emits. -/
def derivedOf (env : Env) (opts : Options) (t : Task) (src : Bytes) : Asset :=
  { name := newFilenameOf env opts t.name, buffer := src, info := newInfoOf opts t }

/-- The derived assets the accepted tasks of a list emit, in order. -/
def emitsOf (env : Env) (opts : Options) (ts : List Task) : List Asset :=
  ts.filterMap (fun t =>
    match outcomeOf env opts t with
    | Outcome.accept _ src => some (derivedOf env opts t src)
    | _ => none)

/-- A concrete environment for evaluation: identity hash, everything
matches, the default gz template, an algorithm compressing everything
to one byte. -/
def exEnvAccept : Env :=
  { hashFn := fun s => s, matchObj := fun _ => true,
    getPath := fun _ n => n ++ ".gz", algo := fun _ => Except.ok [1] }

/-- A concrete environment whose algorithm compresses a ten-byte buffer
to nine bytes (ratio 0.9, above the default 0.8). -/
def exEnvReject : Env :=
  { exEnvAccept with algo := fun _ => Except.ok [1, 2, 3, 4, 5, 6, 7, 8, 9] }

/-- A concrete environment whose algorithm always fails. -/
def exEnvFail : Env :=
  { exEnvAccept with algo := fun _ => Except.error "boom" }

/-- Concrete default-like options: gzip, empty tuning options, the gz
template, threshold 0, minRatio 0.8, no deletion. -/
def exOpts : Options :=
  { algorithm := Algorithm.name "gzip", compressionOptions := [],
    filename := Filename.str "[path][base].gz", threshold := 0,
    ratioMin := Rat.divInt 4 5, deleteOriginalAssets := DeleteOriginalAssets.bool false }

/-- The concrete options with an always-false deletion predicate. -/
def exOptsPred : Options :=
  { exOpts with deleteOriginalAssets := DeleteOriginalAssets.fn (fun _ => false) }

/-- A concrete ten-byte buffer. -/
def exBuf : Bytes := [0, 0, 0, 0, 0, 0, 0, 0, 0, 0]

/-- Concrete fresh asset info. -/
def exInfo : AssetInfo := { compressed := false, immutable := false, related := [] }

/-- A concrete asset. -/
def exAsset : Asset := { name := "a.js", buffer := exBuf, info := exInfo }

/-- The cache item identity of the concrete asset under exOpts. -/
def exKey : CacheKey :=
  { name := "a.js", algorithm := Algorithm.name "gzip",
    compressionOptions := [], contentTag := exBuf }

/-- A concrete build state with one asset, empty cache, no errors. -/
def exSt : BuildState := { assets := [exAsset], cache := [], errors := [] }

/-- A concrete build state whose cache already holds a fully realized
output for the asset. -/
def exStCached : BuildState :=
  { assets := [exAsset],
    cache := [(exKey, { source := some [9, 9], compressed := some [9, 9] })],
    errors := [] }

/-- The concrete task the filter phase builds for exAsset on a cache
miss. -/
def exTask : Task :=
  { name := "a.js", source := exBuf, info := exInfo, buffer := some exBuf,
    output := { source := none, compressed := none }, key := exKey,
    relatedName := "gzipped" }

/-- The concrete task the filter phase builds for exAsset when the
cache holds a realized output source. -/
def exTaskCached : Task :=
  { name := "a.js", source := exBuf, info := exInfo, buffer := none,
    output := { source := some [9, 9], compressed := some [9, 9] }, key := exKey,
    relatedName := "gzipped" }

/-- Concrete raw options: brotliCompress with a caller-supplied params
value overriding the brotli default. -/
def exRawBrotli : RawOptions :=
  { RawOptions.empty with
    algorithm := some (Algorithm.name "brotliCompress"),
    compressionOptions := some [("params", OptValue.num 3)] }

/-- The plugin the constructor produces from exRawBrotli. -/
def exPluginBrotli : Plugin :=
  ⟨{ algorithm := Algorithm.name "brotliCompress",
     compressionOptions :=
       jsSpread (defaultCompressionOptions "brotliCompress")
         [("params", OptValue.num 3)],
     filename := Filename.str "[path][base].br",
     threshold := 0, ratioMin := 4 / 5,
     deleteOriginalAssets := DeleteOriginalAssets.bool false }⟩

/-
Lemmas.  First the association-list facts for the cache and the
related map, then the structural facts about one task and about the
fold of the pass.
-/

theorem lookup_map_replace_self {α β : Type} [DecidableEq α]
    {c : List (α × β)} {k : α} {e : β} :
    List.lookup k (c.map (fun p => if p.1 = k then (k, e) else p)) =
      if (List.lookup k c).isSome then some e else none := by
  induction c with
  | nil => simp
  | cons p c ih =>
    rcases p with ⟨pk, pv⟩
    by_cases h : pk = k
    · subst h
      simp [List.lookup_cons]
    · have hb : (k == pk) = false := beq_eq_false_iff_ne.mpr (Ne.symm h)
      simp only [List.map_cons, List.lookup_cons, if_neg h, hb, ih]

theorem lookup_map_replace_other {α β : Type} [DecidableEq α]
    {c : List (α × β)} {k k2 : α} {e : β} (h : k2 ≠ k) :
    List.lookup k2 (c.map (fun p => if p.1 = k then (k, e) else p)) =
      List.lookup k2 c := by
  induction c with
  | nil => simp
  | cons p c ih =>
    rcases p with ⟨pk, pv⟩
    by_cases hp : pk = k
    · subst hp
      have hb : (k2 == pk) = false := beq_eq_false_iff_ne.mpr h
      simp [List.lookup_cons, hb, ih]
    · simp [List.lookup_cons, hp, ih]

theorem assocPut_lookup {α β : Type} [DecidableEq α]
    (c : List (α × β)) (k : α) (e : β) (k2 : α) :
    List.lookup k2 (assocPut c k e) =
      if k2 = k then some e else List.lookup k2 c := by
  unfold assocPut
  by_cases hk : k2 = k
  · subst hk
    by_cases hs : (List.lookup k2 c).isSome
    · simp [hs, lookup_map_replace_self]
    · simp only [hs, if_false, if_true, List.lookup_append]
      rw [Option.not_isSome_iff_eq_none] at hs
      simp [hs, List.lookup_append, List.lookup_cons]
  · by_cases hs : (List.lookup k c).isSome
    · simp [hs, lookup_map_replace_other hk, hk]
    · have hb : (k2 == k) = false := beq_eq_false_iff_ne.mpr hk
      simp [hs, List.lookup_append, hk, List.lookup_cons, hb]

theorem assocPut_self {α β : Type} [DecidableEq α]
    {c : List (α × β)} {k : α} {e : β}
    (hnd : (c.map Prod.fst).Nodup) (h : List.lookup k c = some e) :
    assocPut c k e = c := by
  unfold assocPut
  simp only [h, Option.isSome_some, if_true]
  rcases List.lookup_eq_some_iff.mp h with ⟨l₁, l₂, hc, hl₁⟩
  subst hc
  conv_rhs =>
    rw [show l₁ ++ (k, e) :: l₂ = (l₁ ++ (k, e) :: l₂).map id from (List.map_id _).symm]
  apply List.map_congr_left
  intro p hp
  rcases p with ⟨pk, pv⟩
  by_cases hpk : pk = k
  · subst hpk
    rcases List.mem_append.mp hp with hmem | hmem
    · have hfalse := hl₁ _ hmem
      simp at hfalse
    · rcases List.mem_cons.mp hmem with hval | hmem
      · simp only [Prod.mk.injEq] at hval
        simp [hval.2]
      · exfalso
        simp only [List.map_append, List.map_cons, List.nodup_append] at hnd
        have hk2 : pk ∉ l₂.map Prod.fst := (List.nodup_cons.mp hnd.2.1).1
        exact hk2 (List.mem_map.mpr ⟨(pk, pv), hmem, rfl⟩)
  · simp [hpk]

theorem cacheLookup_store (c : Cache) (k : CacheKey) (e : CacheEntry) (k2 : CacheKey) :
    cacheLookup (cacheStore c k e) k2 =
      if k2 = k then some e else cacheLookup c k2 :=
  assocPut_lookup c k e k2

theorem cacheStore_self {c : Cache} {k : CacheKey} {e : CacheEntry}
    (hnd : (c.map Prod.fst).Nodup) (h : cacheLookup c k = some e) :
    cacheStore c k e = c :=
  assocPut_self hnd h

theorem relInsert_lookup_self (rel : List (String × String)) (k v : String) :
    List.lookup k (relInsert rel k v) = some v := by
  rw [relInsert, assocPut_lookup]
  simp

theorem assocPut_keys_nodup {α β : Type} [DecidableEq α]
    {c : List (α × β)} {k : α} {e : β} (hnd : (c.map Prod.fst).Nodup) :
    ((assocPut c k e).map Prod.fst).Nodup := by
  unfold assocPut
  by_cases hs : (List.lookup k c).isSome
  · simp only [hs, if_true, List.map_map]
    have : c.map (Prod.fst ∘ fun p => if p.1 = k then (k, e) else p) = c.map Prod.fst := by
      apply List.map_congr_left
      intro p hp
      by_cases hpk : p.1 = k
      · simp [hpk]
      · simp [hpk]
    rw [this]
    exact hnd
  · rw [if_neg hs]
    rw [Option.not_isSome_iff_eq_none, List.lookup_eq_none_iff] at hs
    simp only [List.map_append, List.map_cons, List.map_nil]
    apply List.Nodup.append hnd (List.nodup_singleton k)
    intro x hx hk
    rcases List.mem_map.mp hx with ⟨p, hp, rfl⟩
    rcases List.mem_singleton.mp hk with rfl
    have := hs p hp
    simp at this

theorem emitAsset_split (as : List Asset) (C : Cache) (E : List String)
    (n : String) (src : Bytes) (i : AssetInfo) :
    emitAsset ⟨as, C, E⟩ n src i =
      { assets := (emitAsset ⟨as, C, []⟩ n src i).assets,
        cache := (emitAsset ⟨as, C, []⟩ n src i).cache,
        errors := E ++ (emitAsset ⟨as, C, []⟩ n src i).errors } := by
  unfold emitAsset
  by_cases hf : (assetFind as n).isSome
  · simp [hf]
  · simp [hf]

theorem emitPhase_split (env : Env) (opts : Options) (as : List Asset) (C : Cache)
    (E : List String) (t : Task) (src : Bytes) :
    emitPhase env opts ⟨as, C, E⟩ t src =
      { assets := (emitPhase env opts ⟨as, C, []⟩ t src).assets,
        cache := (emitPhase env opts ⟨as, C, []⟩ t src).cache,
        errors := E ++ (emitPhase env opts ⟨as, C, []⟩ t src).errors } := by
  unfold emitPhase updateAssetRelated deleteAsset clearSourceMap
  cases hdel : opts.deleteOriginalAssets with
  | bool b =>
    cases b
    · exact emitAsset_split _ C E _ src _
    · exact emitAsset_split _ C E _ src _
  | keepSourceMap => exact emitAsset_split _ C E _ src _
  | fn p =>
    by_cases hp : p t.name
    · simp only [hp, if_true]
      exact emitAsset_split _ C E _ src _
    · simp only [hp, if_false]
      exact emitAsset_split _ C E _ src _

theorem runTask_split (env : Env) (opts : Options) (as : List Asset) (C : Cache)
    (E : List String) (t : Task) :
    runTask env opts ⟨as, C, E⟩ t =
      { assets := (runTask env opts ⟨as, C, []⟩ t).assets,
        cache := (runTask env opts ⟨as, C, []⟩ t).cache,
        errors := E ++ (runTask env opts ⟨as, C, []⟩ t).errors } := by
  unfold runTask afterCompress
  cases hsrc : t.output.source with
  | some s =>
    dsimp only
    exact emitPhase_split env opts as C E t s
  | none =>
    cases hcomp : t.output.compressed with
    | some c =>
      dsimp only
      by_cases hr : ratioExceeds c.length (t.buffer.getD []).length opts.ratioMin
      · rw [if_pos hr, if_pos hr]
        simp
      · rw [if_neg hr, if_neg hr]
        exact emitPhase_split env opts as _ E t c
    | none =>
      cases halg : env.algo (t.buffer.getD []) with
      | error e => simp
      | ok c =>
        dsimp only
        by_cases hr : ratioExceeds c.length (t.buffer.getD []).length opts.ratioMin
        · rw [if_pos hr, if_pos hr]
          simp
        · rw [if_neg hr, if_neg hr]
          exact emitPhase_split env opts as _ E t c

theorem runTasks_cons (env : Env) (opts : Options) (st : BuildState) (t : Task)
    (ts : List Task) :
    runTasks env opts st (t :: ts) = runTasks env opts (runTask env opts st t) ts :=
  rfl

theorem runTasks_append (env : Env) (opts : Options) (st : BuildState)
    (ts1 ts2 : List Task) :
    runTasks env opts st (ts1 ++ ts2) =
      runTasks env opts (runTasks env opts st ts1) ts2 := by
  unfold runTasks
  exact List.foldl_append _ _ _ _

theorem runTasks_split (env : Env) (opts : Options) (ts : List Task) :
    ∀ (as : List Asset) (C : Cache) (E : List String),
    runTasks env opts ⟨as, C, E⟩ ts =
      { assets := (runTasks env opts ⟨as, C, []⟩ ts).assets,
        cache := (runTasks env opts ⟨as, C, []⟩ ts).cache,
        errors := E ++ (runTasks env opts ⟨as, C, []⟩ ts).errors } := by
  induction ts with
  | nil => intro as C E; simp [runTasks]
  | cons t ts ih =>
    intro as C E
    rw [runTasks_cons, runTasks_cons, runTask_split env opts as C E t,
        runTask_split env opts as C [] t, List.nil_append]
    generalize (runTask env opts ⟨as, C, []⟩ t).assets = A
    generalize (runTask env opts ⟨as, C, []⟩ t).cache = C2
    generalize (runTask env opts ⟨as, C, []⟩ t).errors = E2
    rw [ih A C2 (E ++ E2), ih A C2 E2]
    simp

theorem runTask_eq (env : Env) (opts : Options) (st : BuildState) (t : Task) :
    runTask env opts st t =
      match outcomeOf env opts t with
      | Outcome.fail e => { st with errors := st.errors ++ [e] }
      | Outcome.reject c =>
        { st with cache := cacheStore st.cache t.key { source := none, compressed := some c } }
      | Outcome.accept true c =>
        emitPhase env opts
          { st with cache := cacheStore st.cache t.key { source := some c, compressed := some c } }
          t c
      | Outcome.accept false s => emitPhase env opts st t s := by
  unfold runTask outcomeOf afterCompress
  cases hsrc : t.output.source with
  | some s => rfl
  | none =>
    cases hcomp : t.output.compressed with
    | some c =>
      dsimp only
      by_cases hr : ratioExceeds c.length (t.buffer.getD []).length opts.ratioMin
      · rw [if_pos hr, if_pos hr]
      · rw [if_neg hr, if_neg hr]
    | none =>
      cases halg : env.algo (t.buffer.getD []) with
      | error e => rfl
      | ok c =>
        dsimp only
        by_cases hr : ratioExceeds c.length (t.buffer.getD []).length opts.ratioMin
        · rw [if_pos hr, if_pos hr]
        · rw [if_neg hr, if_neg hr]

theorem mkTask_inv {env : Env} {opts : Options} {cache : Cache} {a : Asset} {t : Task}
    (h : mkTask env opts cache a = some t) :
    t.name = a.name ∧ t.source = a.buffer ∧ t.info = a.info ∧
    t.key = cacheKeyOf opts a ∧
    t.relatedName = relatedNameFor env.hashFn opts.algorithm opts.filename ∧
    a.info.compressed = false ∧ env.matchObj a.name = true ∧
    List.lookup (relatedNameFor env.hashFn opts.algorithm opts.filename)
      a.info.related = none ∧
    t.output = (cacheLookup cache (cacheKeyOf opts a)).getD
      { source := none, compressed := none } ∧
    ((t.output.source.isSome ∧ t.buffer = none) ∨
     (t.output.source = none ∧ t.buffer = some a.buffer ∧
      ¬ a.buffer.length < opts.threshold)) := by
  unfold mkTask at h
  by_cases h1 : a.info.compressed
  · rw [if_pos h1] at h
    simp at h
  · rw [if_neg h1] at h
    rw [Bool.not_eq_true] at h1
    by_cases h2 : env.matchObj a.name
    · rw [if_neg (by simp [h2])] at h
      by_cases h3 : (List.lookup
          (relatedNameFor env.hashFn opts.algorithm opts.filename)
          a.info.related).isSome
      · rw [if_pos h3] at h
        simp at h
      · rw [if_neg h3] at h
        rw [Option.not_isSome_iff_eq_none] at h3
        by_cases h4 : ((cacheLookup cache (cacheKeyOf opts a)).getD
            { source := none, compressed := none }).source.isSome
        · rw [if_pos h4] at h
          rcases Option.some.inj h with rfl
          exact ⟨rfl, rfl, rfl, rfl, rfl, h1, h2, h3, rfl, Or.inl ⟨h4, rfl⟩⟩
        · rw [if_neg h4] at h
          by_cases h5 : a.buffer.length < opts.threshold
          · rw [if_pos h5] at h
            simp at h
          · rw [if_neg h5] at h
            rcases Option.some.inj h with rfl
            rw [Option.not_isSome_iff_eq_none] at h4
            exact ⟨rfl, rfl, rfl, rfl, rfl, h1, h2, h3, rfl, Or.inr ⟨h4, rfl, h5⟩⟩
    · rw [if_pos (by simp [Bool.not_eq_true] at h2 ⊢; exact h2)] at h
      simp at h

theorem assetFind_eq_none {as : List Asset} {n : String} :
    assetFind as n = none ↔ n ∉ assetNames as := by
  unfold assetFind assetNames
  rw [List.find?_eq_none]
  simp only [List.mem_map, decide_eq_true_eq]
  constructor
  · rintro h ⟨a, ha, rfl⟩
    exact h a ha rfl
  · intro h a ha hn
    exact h ⟨a, ha, hn⟩

theorem assetFind_append (as bs : List Asset) (n : String) :
    assetFind (as ++ bs) n = (assetFind as n).or (assetFind bs n) := by
  unfold assetFind
  exact List.find?_append

theorem assetFind_map_if_other {n n2 : String} {g : Asset → Asset}
    (hg : ∀ a, (g a).name = a.name) (as : List Asset) (hne : n2 ≠ n) :
    assetFind (as.map (fun a => if a.name = n then g a else a)) n2 =
      assetFind as n2 := by
  induction as with
  | nil => rfl
  | cons a as ih =>
    simp only [List.map_cons, assetFind] at *
    by_cases h2 : a.name = n2
    · have h : ¬ a.name = n := fun hn => hne (h2 ▸ hn ▸ rfl)
      rw [if_neg h, List.find?_cons_of_pos _ (by simp [h2]),
          List.find?_cons_of_pos _ (by simp [h2])]
    · by_cases h : a.name = n
      · rw [if_pos h, List.find?_cons_of_neg _ (by simp [hg, h, Ne.symm hne]),
            List.find?_cons_of_neg _ (by simp [h2]), ih]
      · rw [if_neg h, List.find?_cons_of_neg _ (by simp [h2]),
            List.find?_cons_of_neg _ (by simp [h2]), ih]

theorem assetFind_map_if_self {n : String} {g : Asset → Asset}
    (hg : ∀ a, (g a).name = a.name) (as : List Asset) :
    assetFind (as.map (fun a => if a.name = n then g a else a)) n =
      (assetFind as n).map g := by
  induction as with
  | nil => rfl
  | cons a as ih =>
    simp only [List.map_cons, assetFind] at *
    by_cases h : a.name = n
    · rw [if_pos h, List.find?_cons_of_pos _ (by simp [hg, h]),
          List.find?_cons_of_pos _ (by simp [h])]
      rfl
    · rw [if_neg h, List.find?_cons_of_neg _ (by simp [hg, h]),
          List.find?_cons_of_neg _ (by simp [h]), ih]

theorem assetNames_map_namePres {g : Asset → Asset} (hg : ∀ a, (g a).name = a.name)
    (as : List Asset) (n : String) :
    assetNames (as.map (fun a => if a.name = n then g a else a)) = assetNames as := by
  unfold assetNames
  rw [List.map_map]
  apply List.map_congr_left
  intro a _
  by_cases h : a.name = n
  · simp [h, hg]
  · simp [h]

theorem assetNames_filter_subset (p : Asset → Bool) (as : List Asset) :
    assetNames (as.filter p) ⊆ assetNames as := by
  unfold assetNames
  intro n hn
  rcases List.mem_map.mp hn with ⟨a, ha, rfl⟩
  exact List.mem_map.mpr ⟨a, List.mem_of_mem_filter ha, rfl⟩

theorem annotate_name (t : Task) (nf : String) (a : Asset) :
    (annotate t nf a).name = a.name := rfl

theorem updateAssetRelated_eq_annotate (st : BuildState) (t : Task) (nf : String) :
    updateAssetRelated st t.name t.source t.relatedName nf =
      { st with assets :=
          st.assets.map (fun a => if a.name = t.name then annotate t nf a else a) } :=
  rfl

theorem find_filter_ne (as : List Asset) (n n2 : String) (hne : n2 ≠ n) :
    assetFind (as.filter (fun a => !(a.name = n))) n2 = assetFind as n2 := by
  induction as with
  | nil => rfl
  | cons a as ih =>
    rw [List.filter_cons]
    by_cases h : a.name = n
    · rw [if_neg (by simp [h])]
      unfold assetFind at *
      rw [List.find?_cons_of_neg _ (by simp [h, Ne.symm hne])]
      exact ih
    · rw [if_pos (by simp [h])]
      unfold assetFind at *
      by_cases h2 : a.name = n2
      · rw [List.find?_cons_of_pos _ (by simp [h2]),
            List.find?_cons_of_pos _ (by simp [h2])]
      · rw [List.find?_cons_of_neg _ (by simp [h2]),
            List.find?_cons_of_neg _ (by simp [h2])]
        exact ih

theorem emitAsset_cache (st : BuildState) (n : String) (src : Bytes) (i : AssetInfo) :
    (emitAsset st n src i).cache = st.cache := by
  unfold emitAsset
  by_cases hf : (assetFind st.assets n).isSome
  · simp [hf]
  · simp [hf]

theorem emitAsset_find_self {st : BuildState} {n : String} (src : Bytes) (i : AssetInfo)
    (h : assetFind st.assets n = none) :
    assetFind (emitAsset st n src i).assets n = some ⟨n, src, i⟩ := by
  unfold emitAsset
  rw [if_neg (by simp [h])]
  dsimp only
  rw [assetFind_append, h]
  unfold assetFind
  rw [List.find?_cons_of_pos _ (by simp)]
  rfl

theorem emitAsset_assets_fresh {st : BuildState} {n : String} (src : Bytes) (i : AssetInfo)
    (h : assetFind st.assets n = none) :
    (emitAsset st n src i).assets = st.assets ++ [{ name := n, buffer := src, info := i }] := by
  unfold emitAsset
  rw [if_neg (by simp [h])]

theorem emitPhase_cache (env : Env) (opts : Options) (st : BuildState) (t : Task)
    (src : Bytes) :
    (emitPhase env opts st t src).cache = st.cache := by
  unfold emitPhase
  cases hdel : opts.deleteOriginalAssets with
  | bool b =>
    cases b
    · exact emitAsset_cache _ _ _ _
    · exact emitAsset_cache _ _ _ _
  | keepSourceMap => exact emitAsset_cache _ _ _ _
  | fn p =>
    by_cases hp : p t.name
    · simp only [hp, if_true]
      exact emitAsset_cache _ _ _ _
    · simp only [hp, if_false]
      exact emitAsset_cache _ _ _ _

theorem updateAssetRelated_names (st : BuildState) (n : String) (src : Bytes)
    (k v : String) :
    assetNames (updateAssetRelated st n src k v).assets = assetNames st.assets := by
  unfold updateAssetRelated assetNames
  dsimp only
  rw [List.map_map]
  apply List.map_congr_left
  intro a _
  by_cases h : a.name = n
  · simp [h]
  · simp [h]

theorem clearSourceMap_names (st : BuildState) (n : String) (src : Bytes) :
    assetNames (clearSourceMap st n src).assets = assetNames st.assets := by
  unfold clearSourceMap assetNames
  dsimp only
  rw [List.map_map]
  apply List.map_congr_left
  intro a _
  by_cases h : a.name = n
  · simp [h]
  · simp [h]

theorem emitPhase_find_new (env : Env) (opts : Options) (st : BuildState) (t : Task)
    (src : Bytes)
    (hfresh : newFilenameOf env opts t.name ∉ assetNames st.assets) :
    assetFind (emitPhase env opts st t src).assets (newFilenameOf env opts t.name) =
      some (derivedOf env opts t src) := by
  have hnone : ∀ as2 : List Asset, assetNames as2 ⊆ assetNames st.assets →
      assetFind as2 (newFilenameOf env opts t.name) = none :=
    fun as2 hsub => assetFind_eq_none.mpr (fun hm => hfresh (hsub hm))
  unfold emitPhase
  cases hdel : opts.deleteOriginalAssets with
  | bool b =>
    cases b
    · exact emitAsset_find_self _ _
        (hnone _ (by rw [updateAssetRelated_names]; exact fun _ h => h))
    · exact emitAsset_find_self _ _
        (hnone _ (assetNames_filter_subset _ _))
  | keepSourceMap =>
    exact emitAsset_find_self _ _
      (hnone _ (by
        refine subset_trans (assetNames_filter_subset _ _) ?_
        rw [clearSourceMap_names]
        exact fun _ h => h))
  | fn p =>
    by_cases hp : p t.name
    · simp only [hp, if_true]
      exact emitAsset_find_self _ _ (hnone _ (assetNames_filter_subset _ _))
    · simp only [hp, if_false]
      exact emitAsset_find_self _ _ (hnone _ (fun _ h => h))

theorem emitPhase_keep_shape {env : Env} {opts : Options} (st : BuildState) (t : Task)
    (src : Bytes)
    (hdel : opts.deleteOriginalAssets = DeleteOriginalAssets.bool false)
    (hfresh : assetFind st.assets (newFilenameOf env opts t.name) = none) :
    (emitPhase env opts st t src).assets =
      st.assets.map (fun a =>
        if a.name = t.name then annotate t (newFilenameOf env opts t.name) a else a)
        ++ [derivedOf env opts t src] := by
  unfold emitPhase
  rw [hdel]
  dsimp only
  rw [updateAssetRelated_eq_annotate]
  have hf2 : assetFind
      (st.assets.map (fun a =>
        if a.name = t.name then annotate t (newFilenameOf env opts t.name) a else a))
      (newFilenameOf env opts t.name) = none := by
    apply assetFind_eq_none.mpr
    intro hm
    have := assetFind_eq_none.mp hfresh
    apply this
    have hnames : assetNames (st.assets.map (fun a =>
        if a.name = t.name then annotate t (newFilenameOf env opts t.name) a else a)) =
        assetNames st.assets := by
      have := updateAssetRelated_names st t.name t.source t.relatedName
        (newFilenameOf env opts t.name)
      rw [updateAssetRelated_eq_annotate] at this
      exact this
    rw [hnames] at hm
    exact hm
  exact emitAsset_assets_fresh src (newInfoOf opts t) hf2

theorem emitPhase_pred_shape {env : Env} {opts : Options} {p : String → Bool}
    (st : BuildState) (t : Task) (src : Bytes)
    (hdel : opts.deleteOriginalAssets = DeleteOriginalAssets.fn p)
    (hp : p t.name = false)
    (hfresh : assetFind st.assets (newFilenameOf env opts t.name) = none) :
    (emitPhase env opts st t src).assets =
      st.assets ++ [derivedOf env opts t src] := by
  unfold emitPhase
  rw [hdel]
  dsimp only
  simp only [hp, Bool.false_eq_true, if_false]
  exact emitAsset_assets_fresh src (newInfoOf opts t) hfresh

theorem emitAsset_find_other {st : BuildState} {n : String} {src : Bytes}
    {i : AssetInfo} {n2 : String} (hne : n2 ≠ n) :
    assetFind (emitAsset st n src i).assets n2 = assetFind st.assets n2 := by
  unfold emitAsset
  by_cases hf : (assetFind st.assets n).isSome
  · rw [if_pos hf]
  · rw [if_neg hf]
    dsimp only
    rw [assetFind_append]
    have hsing : assetFind [{ name := n, buffer := src, info := i }] n2 = none := by
      unfold assetFind
      rw [List.find?_cons_of_neg _ (by simp [Ne.symm hne])]
      rfl
    rw [hsing, Option.or_none]

theorem emitPhase_find_other {env : Env} {opts : Options} {st : BuildState} {t : Task}
    {src : Bytes} {n : String}
    (hdel : opts.deleteOriginalAssets = DeleteOriginalAssets.bool false)
    (hn1 : n ≠ t.name) (hn2 : n ≠ newFilenameOf env opts t.name) :
    assetFind (emitPhase env opts st t src).assets n = assetFind st.assets n := by
  unfold emitPhase
  rw [hdel]
  dsimp only
  rw [emitAsset_find_other hn2, updateAssetRelated_eq_annotate]
  dsimp only
  exact assetFind_map_if_other (annotate_name t _) _ hn1

theorem emitPhase_find_own {env : Env} {opts : Options} {st : BuildState} {t : Task}
    {src : Bytes}
    (hdel : opts.deleteOriginalAssets = DeleteOriginalAssets.bool false)
    (hne : newFilenameOf env opts t.name ≠ t.name) :
    assetFind (emitPhase env opts st t src).assets t.name =
      (assetFind st.assets t.name).map (annotate t (newFilenameOf env opts t.name)) := by
  unfold emitPhase
  rw [hdel]
  dsimp only
  rw [emitAsset_find_other (Ne.symm hne), updateAssetRelated_eq_annotate]
  dsimp only
  exact assetFind_map_if_self (annotate_name t _) _

theorem runTask_find_other {env : Env} {opts : Options} {st : BuildState} {t : Task}
    {n : String}
    (hdel : opts.deleteOriginalAssets = DeleteOriginalAssets.bool false)
    (hn1 : n ≠ t.name) (hn2 : n ≠ newFilenameOf env opts t.name) :
    assetFind (runTask env opts st t).assets n = assetFind st.assets n := by
  rw [runTask_eq]
  cases h : outcomeOf env opts t with
  | fail e => rfl
  | reject c => rfl
  | accept b src =>
    cases b
    · exact emitPhase_find_other hdel hn1 hn2
    · exact emitPhase_find_other hdel hn1 hn2

theorem runTask_find_own {env : Env} {opts : Options} {st : BuildState} {t : Task}
    (hdel : opts.deleteOriginalAssets = DeleteOriginalAssets.bool false)
    (hne : newFilenameOf env opts t.name ≠ t.name) :
    assetFind (runTask env opts st t).assets t.name =
      (match outcomeOf env opts t with
       | Outcome.accept _ _ =>
         (assetFind st.assets t.name).map (annotate t (newFilenameOf env opts t.name))
       | _ => assetFind st.assets t.name) := by
  rw [runTask_eq]
  cases h : outcomeOf env opts t with
  | fail e => rfl
  | reject c => rfl
  | accept b src =>
    cases b
    · exact emitPhase_find_own hdel hne
    · exact emitPhase_find_own hdel hne

theorem runTask_find_new {env : Env} {opts : Options} {st : BuildState} {t : Task}
    (hfresh : newFilenameOf env opts t.name ∉ assetNames st.assets) :
    assetFind (runTask env opts st t).assets (newFilenameOf env opts t.name) =
      (match outcomeOf env opts t with
       | Outcome.accept _ src => some (derivedOf env opts t src)
       | _ => assetFind st.assets (newFilenameOf env opts t.name)) := by
  rw [runTask_eq]
  cases h : outcomeOf env opts t with
  | fail e => rfl
  | reject c => rfl
  | accept b src =>
    cases b
    · exact emitPhase_find_new env opts _ t src hfresh
    · exact emitPhase_find_new env opts _ t src hfresh

theorem runTask_cache_lookup (env : Env) (opts : Options) (st : BuildState) (t : Task)
    (k : CacheKey) :
    cacheLookup (runTask env opts st t).cache k =
      (match outcomeOf env opts t with
       | Outcome.fail _ => cacheLookup st.cache k
       | Outcome.reject c =>
         if k = t.key then some { source := none, compressed := some c }
         else cacheLookup st.cache k
       | Outcome.accept true c =>
         if k = t.key then some { source := some c, compressed := some c }
         else cacheLookup st.cache k
       | Outcome.accept false _ => cacheLookup st.cache k) := by
  rw [runTask_eq]
  cases h : outcomeOf env opts t with
  | fail e => rfl
  | reject c =>
    dsimp only
    rw [cacheLookup_store]
  | accept b src =>
    cases b
    · rw [emitPhase_cache]
    · rw [emitPhase_cache]
      dsimp only
      rw [cacheLookup_store]

theorem runTask_cache_keys_nodup {env : Env} {opts : Options} {st : BuildState}
    {t : Task} (hnd : (st.cache.map Prod.fst).Nodup) :
    ((runTask env opts st t).cache.map Prod.fst).Nodup := by
  rw [runTask_eq]
  cases h : outcomeOf env opts t with
  | fail e => exact hnd
  | reject c => exact assocPut_keys_nodup hnd
  | accept b src =>
    cases b
    · rw [emitPhase_cache]
      exact hnd
    · rw [emitPhase_cache]
      exact assocPut_keys_nodup hnd

theorem runTasks_find_other {env : Env} {opts : Options}
    (hdel : opts.deleteOriginalAssets = DeleteOriginalAssets.bool false)
    (ts : List Task) (n : String)
    (h : ∀ u ∈ ts, u.name ≠ n ∧ newFilenameOf env opts u.name ≠ n) :
    ∀ st : BuildState,
    assetFind (runTasks env opts st ts).assets n = assetFind st.assets n := by
  induction ts with
  | nil => intro st; rfl
  | cons t ts ih =>
    intro st
    rw [runTasks_cons, ih (fun u hu => h u (List.mem_cons_of_mem t hu))]
    have ht := h t (List.mem_cons_self t ts)
    exact runTask_find_other hdel (Ne.symm ht.1) (Ne.symm ht.2)

theorem runTasks_cache_other {env : Env} {opts : Options}
    (ts : List Task) (k : CacheKey) (h : ∀ u ∈ ts, u.key ≠ k) :
    ∀ st : BuildState,
    cacheLookup (runTasks env opts st ts).cache k = cacheLookup st.cache k := by
  induction ts with
  | nil => intro st; rfl
  | cons t ts ih =>
    intro st
    rw [runTasks_cons, ih (fun u hu => h u (List.mem_cons_of_mem t hu))]
    have ht : ¬ (k = t.key) := fun hk => h t (List.mem_cons_self t ts) hk.symm
    rw [runTask_cache_lookup]
    cases ho : outcomeOf env opts t with
    | fail e => rfl
    | reject c =>
      dsimp only
      rw [if_neg ht]
    | accept b src =>
      cases b
      · rfl
      · dsimp only
        rw [if_neg ht]

theorem runTasks_cache_keys_nodup {env : Env} {opts : Options}
    (ts : List Task) :
    ∀ st : BuildState, (st.cache.map Prod.fst).Nodup →
    ((runTasks env opts st ts).cache.map Prod.fst).Nodup := by
  induction ts with
  | nil => intro st h; exact h
  | cons t ts ih =>
    intro st h
    rw [runTasks_cons]
    exact ih _ (runTask_cache_keys_nodup h)

theorem assetNames_append (as bs : List Asset) :
    assetNames (as ++ bs) = assetNames as ++ assetNames bs := by
  unfold assetNames
  exact List.map_append _ _ _

theorem find?_task_none {ts : List Task} {n : String} (h : ∀ u ∈ ts, u.name ≠ n) :
    ts.find? (fun t => t.name = n) = none :=
  List.find?_eq_none.mpr (fun u hu => by simp [h u hu])

theorem annotAll_nil (env : Env) (opts : Options) (as : List Asset) :
    annotAll env opts [] as = as := by
  unfold annotAll
  simp

theorem emitsOf_nil (env : Env) (opts : Options) : emitsOf env opts [] = [] := rfl

theorem emitsOf_cons_accept {env : Env} {opts : Options} {t : Task} {b : Bool}
    {src : Bytes} (ts : List Task) (ho : outcomeOf env opts t = Outcome.accept b src) :
    emitsOf env opts (t :: ts) = derivedOf env opts t src :: emitsOf env opts ts := by
  unfold emitsOf
  rw [List.filterMap_cons]
  rw [ho]

theorem emitsOf_cons_fail {env : Env} {opts : Options} {t : Task} {e : String}
    (ts : List Task) (ho : outcomeOf env opts t = Outcome.fail e) :
    emitsOf env opts (t :: ts) = emitsOf env opts ts := by
  unfold emitsOf
  rw [List.filterMap_cons, ho]

theorem emitsOf_cons_reject {env : Env} {opts : Options} {t : Task} {c : Bytes}
    (ts : List Task) (ho : outcomeOf env opts t = Outcome.reject c) :
    emitsOf env opts (t :: ts) = emitsOf env opts ts := by
  unfold emitsOf
  rw [List.filterMap_cons, ho]

theorem annotAll_append (env : Env) (opts : Options) (ts : List Task)
    (as bs : List Asset) :
    annotAll env opts ts (as ++ bs) =
      annotAll env opts ts as ++ annotAll env opts ts bs := by
  unfold annotAll
  exact List.map_append _ _ _

theorem annotAll_untouched (env : Env) (opts : Options) (ts : List Task)
    (as : List Asset) (h : ∀ a ∈ as, ∀ u ∈ ts, u.name ≠ a.name) :
    annotAll env opts ts as = as := by
  unfold annotAll
  conv_rhs => rw [show as = as.map id from (List.map_id as).symm]
  apply List.map_congr_left
  intro a ha
  rw [find?_task_none (fun u hu => h a ha u hu)]
  rfl

theorem annotAll_cons_skip (env : Env) (opts : Options) {t : Task} (ts : List Task)
    (as : List Asset) (hnm : ∀ u ∈ ts, u.name ≠ t.name)
    (hacc : ∀ b src, outcomeOf env opts t ≠ Outcome.accept b src) :
    annotAll env opts (t :: ts) as = annotAll env opts ts as := by
  unfold annotAll
  apply List.map_congr_left
  intro a _
  by_cases h : t.name = a.name
  · rw [List.find?_cons_of_pos _ (by simp [h])]
    have hts : ts.find? (fun u => u.name = a.name) = none :=
      find?_task_none (fun u hu hua => hnm u hu (hua.trans h.symm))
    rw [hts]
    cases ho2 : outcomeOf env opts t with
    | accept b src => exact absurd ho2 (hacc b src)
    | fail e =>
      dsimp only
      rw [ho2]
    | reject c =>
      dsimp only
      rw [ho2]
  · rw [List.find?_cons_of_neg _ (by simp [h])]

theorem annotAll_map_accept (env : Env) (opts : Options) {t : Task} (ts : List Task)
    (as : List Asset) (hnm : ∀ u ∈ ts, u.name ≠ t.name)
    {b : Bool} {src : Bytes} (hacc : outcomeOf env opts t = Outcome.accept b src) :
    annotAll env opts ts
      (as.map (fun a =>
        if a.name = t.name then annotate t (newFilenameOf env opts t.name) a else a)) =
      annotAll env opts (t :: ts) as := by
  unfold annotAll
  rw [List.map_map]
  apply List.map_congr_left
  intro a _
  by_cases h : a.name = t.name
  · have hts : ts.find? (fun u => u.name =
        (annotate t (newFilenameOf env opts t.name) a).name) = none :=
      find?_task_none (fun u hu hua => hnm u hu (by
        rw [annotate_name] at hua
        exact hua.trans h))
    simp only [Function.comp_apply, if_pos h]
    rw [hts, List.find?_cons_of_pos _ (by simp [h.symm])]
    dsimp only
    rw [hacc]
  · simp only [Function.comp_apply, if_neg h]
    rw [List.find?_cons_of_neg _ (by
      simp only [decide_eq_true_eq]
      exact fun hh => h hh.symm)]

theorem runTasks_shape {env : Env} {opts : Options}
    (hdel : opts.deleteOriginalAssets = DeleteOriginalAssets.bool false) :
    ∀ (ts : List Task) (as : List Asset) (C : Cache) (E : List String),
    (assetNames as).Nodup →
    (ts.map Task.name).Nodup →
    (∀ t ∈ ts, t.name ∈ assetNames as) →
    (∀ t ∈ ts, newFilenameOf env opts t.name ∉ assetNames as) →
    (∀ t ∈ ts, ∀ u ∈ ts,
      newFilenameOf env opts t.name = newFilenameOf env opts u.name → t.name = u.name) →
    (runTasks env opts ⟨as, C, E⟩ ts).assets =
      annotAll env opts ts as ++ emitsOf env opts ts := by
  intro ts
  induction ts with
  | nil =>
    intro as C E _ _ _ _ _
    simp [runTasks, annotAll_nil, emitsOf_nil]
  | cons t ts ih =>
    intro as C E hndA hndT hmem hfresh hinj
    have hnmts : ∀ u ∈ ts, u.name ≠ t.name := by
      intro u hu he
      exact (List.nodup_cons.mp hndT).1 (List.mem_map.mpr ⟨u, hu, he⟩)
    have hndT2 : (ts.map Task.name).Nodup := (List.nodup_cons.mp hndT).2
    have hmem2 : ∀ u ∈ ts, u.name ∈ assetNames as :=
      fun u hu => hmem u (List.mem_cons_of_mem _ hu)
    have hfresh2 : ∀ u ∈ ts, newFilenameOf env opts u.name ∉ assetNames as :=
      fun u hu => hfresh u (List.mem_cons_of_mem _ hu)
    have hinj2 : ∀ u ∈ ts, ∀ v ∈ ts,
        newFilenameOf env opts u.name = newFilenameOf env opts v.name →
          u.name = v.name :=
      fun u hu v hv => hinj u (List.mem_cons_of_mem _ hu) v (List.mem_cons_of_mem _ hv)
    rw [runTasks_cons, runTask_eq]
    cases ho : outcomeOf env opts t with
    | fail e =>
      dsimp only
      rw [ih as C (E ++ [e]) hndA hndT2 hmem2 hfresh2 hinj2]
      rw [annotAll_cons_skip env opts ts as hnmts
            (fun b src hb => by rw [ho] at hb; cases hb),
          emitsOf_cons_fail ts ho]
    | reject c =>
      dsimp only
      rw [ih as (cacheStore C t.key { source := none, compressed := some c }) E
            hndA hndT2 hmem2 hfresh2 hinj2]
      rw [annotAll_cons_skip env opts ts as hnmts
            (fun b src hb => by rw [ho] at hb; cases hb),
          emitsOf_cons_reject ts ho]
    | accept b src =>
      have key : ∀ st0 : BuildState, st0.assets = as →
          (runTasks env opts (emitPhase env opts st0 t src) ts).assets =
            annotAll env opts (t :: ts) as ++ emitsOf env opts (t :: ts) := by
        intro st0 hst0
        have hfrT : newFilenameOf env opts t.name ∉ assetNames as :=
          hfresh t (List.mem_cons_self t ts)
        have hfr : assetFind st0.assets (newFilenameOf env opts t.name) = none := by
          rw [hst0]
          exact assetFind_eq_none.mpr hfrT
        have hsh := emitPhase_keep_shape st0 t src hdel hfr
        rw [hst0] at hsh
        have hnames1 : assetNames (emitPhase env opts st0 t src).assets =
            assetNames as ++ [newFilenameOf env opts t.name] := by
          rw [hsh, assetNames_append,
              assetNames_map_namePres (annotate_name t _) as t.name]
          rfl
        have hndA1 : (assetNames (emitPhase env opts st0 t src).assets).Nodup := by
          rw [hnames1]
          refine List.Nodup.append hndA (List.nodup_singleton _) ?_
          intro x hx hx2
          rcases List.mem_singleton.mp hx2 with rfl
          exact hfrT hx
        have hmem1 : ∀ u ∈ ts,
            u.name ∈ assetNames (emitPhase env opts st0 t src).assets := by
          intro u hu
          rw [hnames1]
          exact List.mem_append_left _ (hmem2 u hu)
        have hfresh1 : ∀ u ∈ ts,
            newFilenameOf env opts u.name ∉
              assetNames (emitPhase env opts st0 t src).assets := by
          intro u hu hmem3
          rw [hnames1] at hmem3
          rcases List.mem_append.mp hmem3 with h3 | h3
          · exact hfresh2 u hu h3
          · rcases List.mem_singleton.mp h3 with heq
            have := hinj u (List.mem_cons_of_mem _ hu) t (List.mem_cons_self t ts) heq
            exact hnmts u hu this
        have happ := ih (emitPhase env opts st0 t src).assets
          (emitPhase env opts st0 t src).cache
          (emitPhase env opts st0 t src).errors
          hndA1 hndT2 hmem1 hfresh1 hinj2
        have hrun : (runTasks env opts (emitPhase env opts st0 t src) ts).assets =
            annotAll env opts ts (emitPhase env opts st0 t src).assets ++
              emitsOf env opts ts := happ
        rw [hrun, hsh, annotAll_append, annotAll_map_accept env opts ts as hnmts ho,
            annotAll_untouched env opts ts [derivedOf env opts t src]
              (by
                intro a ha u hu
                rcases List.mem_singleton.mp ha with rfl
                intro he
                have hd : (derivedOf env opts t src).name =
                    newFilenameOf env opts t.name := rfl
                rw [hd] at he
                exact hfrT (he ▸ hmem2 u hu)),
            emitsOf_cons_accept ts ho]
        rw [List.append_assoc]
        rfl
      cases b
      · dsimp only
        exact key _ rfl
      · dsimp only
        exact key _ rfl

theorem runTasks_noop {env : Env} {opts : Options} (ts : List Task)
    (A : List Asset) (C : Cache)
    (h : ∀ t ∈ ts, ∀ E : List String,
      (runTask env opts ⟨A, C, E⟩ t).assets = A ∧
      (runTask env opts ⟨A, C, E⟩ t).cache = C) :
    ∀ E : List String,
    (runTasks env opts ⟨A, C, E⟩ ts).assets = A ∧
    (runTasks env opts ⟨A, C, E⟩ ts).cache = C := by
  induction ts with
  | nil => intro E; exact ⟨rfl, rfl⟩
  | cons t ts ih =>
    intro E
    rw [runTasks_cons]
    have ht := h t (List.mem_cons_self t ts)
    have hstep : runTask env opts ⟨A, C, E⟩ t =
        ⟨A, C, (runTask env opts ⟨A, C, E⟩ t).errors⟩ := by
      have h1 := (ht E).1
      have h2 := (ht E).2
      calc runTask env opts ⟨A, C, E⟩ t
          = ⟨(runTask env opts ⟨A, C, E⟩ t).assets,
             (runTask env opts ⟨A, C, E⟩ t).cache,
             (runTask env opts ⟨A, C, E⟩ t).errors⟩ := rfl
        _ = ⟨A, C, (runTask env opts ⟨A, C, E⟩ t).errors⟩ := by rw [h1, h2]
    rw [hstep]
    exact ih (fun u hu E2 => h u (List.mem_cons_of_mem t hu) E2) _

theorem tasks_names_sublist (env : Env) (opts : Options) (C : Cache) :
    ∀ as : List Asset,
    ((as.filterMap (mkTask env opts C)).map Task.name).Sublist (assetNames as) := by
  intro as
  induction as with
  | nil => simp [assetNames]
  | cons a as ih =>
    rw [List.filterMap_cons]
    cases hb : mkTask env opts C a with
    | none =>
      exact List.Sublist.cons a.name ih
    | some t =>
      rw [List.map_cons]
      have hn : t.name = a.name := (mkTask_inv hb).1
      rw [hn]
      exact List.Sublist.cons₂ a.name ih

theorem tasks_names_nodup {env : Env} {opts : Options} {C : Cache} {as : List Asset}
    (hndA : (assetNames as).Nodup) :
    ((as.filterMap (mkTask env opts C)).map Task.name).Nodup :=
  (tasks_names_sublist env opts C as).nodup hndA

theorem find_task_of_mkTask {env : Env} {opts : Options} {C : Cache} :
    ∀ {as : List Asset}, (assetNames as).Nodup → ∀ {a : Asset}, a ∈ as →
    (as.filterMap (mkTask env opts C)).find? (fun u => u.name = a.name) =
      mkTask env opts C a := by
  intro as
  induction as with
  | nil => intro _ a ha; cases ha
  | cons b bs ih =>
    intro hnd a ha
    have hndb : (assetNames bs).Nodup := (List.nodup_cons.mp hnd).2
    have hbnotin : b.name ∉ assetNames bs := (List.nodup_cons.mp hnd).1
    rw [List.filterMap_cons]
    cases hb : mkTask env opts C b with
    | none =>
      rcases List.mem_cons.mp ha with rfl | ha2
      · rw [find?_task_none, hb]
        intro u hu
        rcases List.mem_filterMap.mp hu with ⟨c, hc, hmc⟩
        have : u.name = c.name := (mkTask_inv hmc).1
        rw [this]
        intro hcb
        exact hbnotin (hcb ▸ List.mem_map.mpr ⟨c, hc, rfl⟩)
      · exact ih hndb ha2
    | some t =>
      have htn : t.name = b.name := (mkTask_inv hb).1
      rcases List.mem_cons.mp ha with rfl | ha2
      · rw [List.find?_cons_of_pos _ (by simp [htn]), hb]
      · have hne : ¬ (t.name = a.name) := by
          rw [htn]
          intro hba
          exact hbnotin (hba ▸ List.mem_map.mpr ⟨a, ha2, rfl⟩)
        rw [List.find?_cons_of_neg _ (by simp [hne])]
        exact ih hndb ha2

theorem mkTask_cache_congr {env : Env} {opts : Options} {C C2 : Cache} (a : Asset)
    (h : cacheLookup C2 (cacheKeyOf opts a) = cacheLookup C (cacheKeyOf opts a)) :
    mkTask env opts C2 a = mkTask env opts C a := by
  unfold mkTask
  simp only [h]

theorem runTasks_cache_split {env : Env} {opts : Options}
    (ts1 ts2 : List Task) (t : Task) (st : BuildState)
    (h1 : ∀ u ∈ ts1, u.key ≠ t.key) (h2 : ∀ u ∈ ts2, u.key ≠ t.key) :
    cacheLookup (runTasks env opts st (ts1 ++ t :: ts2)).cache t.key =
      (match outcomeOf env opts t with
       | Outcome.reject c => some { source := none, compressed := some c }
       | Outcome.accept true c => some { source := some c, compressed := some c }
       | _ => cacheLookup st.cache t.key) := by
  rw [runTasks_append, runTasks_cons]
  rw [runTasks_cache_other ts2 t.key (fun u hu hk => h2 u hu hk)]
  rw [runTask_cache_lookup]
  cases ho : outcomeOf env opts t with
  | fail e =>
    exact runTasks_cache_other ts1 t.key (fun u hu hk => h1 u hu hk) st
  | reject c =>
    dsimp only
    rw [if_pos rfl]
  | accept b src =>
    cases b
    · dsimp only
      exact runTasks_cache_other ts1 t.key (fun u hu hk => h1 u hu hk) st
    · dsimp only
      rw [if_pos rfl]

theorem mkTask_none_of_marked (env : Env) (opts : Options) (cache : Cache) (a : Asset)
    (h : a.info.compressed = true ∨
      (List.lookup (relatedNameFor env.hashFn opts.algorithm opts.filename)
        a.info.related).isSome) :
    mkTask env opts cache a = none := by
  unfold mkTask
  rcases h with h | h
  · rw [if_pos h]
  · by_cases h1 : a.info.compressed
    · rw [if_pos h1]
    · rw [if_neg h1]
      by_cases h2 : env.matchObj a.name
      · rw [if_neg (by simp [h2])]
        rw [if_pos h]
      · rw [if_pos (by simp only [Bool.not_eq_true] at h2; simp [h2])]

theorem emitsOf_compressed {env : Env} {opts : Options} {ts : List Task} :
    ∀ a ∈ emitsOf env opts ts, a.info.compressed = true := by
  intro a ha
  rcases List.mem_filterMap.mp ha with ⟨t, _, hmt⟩
  cases ho : outcomeOf env opts t with
  | fail e => rw [ho] at hmt; cases hmt
  | reject c => rw [ho] at hmt; cases hmt
  | accept b src =>
    rw [ho] at hmt
    rcases Option.some.inj hmt with rfl
    rfl

theorem outcome_reject_elim {env : Env} {opts : Options} {t : Task} {c : Bytes}
    (ho : outcomeOf env opts t = Outcome.reject c) :
    t.output.source = none ∧
    ratioExceeds c.length (t.buffer.getD []).length opts.ratioMin = true := by
  unfold outcomeOf at ho
  cases hsrc : t.output.source with
  | some s => rw [hsrc] at ho; cases ho
  | none =>
    rw [hsrc] at ho
    refine ⟨rfl, ?_⟩
    cases hcomp : t.output.compressed with
    | some c2 =>
      rw [hcomp] at ho
      dsimp only at ho
      by_cases hr : ratioExceeds c2.length (t.buffer.getD []).length opts.ratioMin
      · rw [if_pos hr] at ho
        rcases Outcome.reject.inj ho with rfl
        exact hr
      · rw [if_neg hr] at ho
        cases ho
    | none =>
      rw [hcomp] at ho
      dsimp only at ho
      cases halg : env.algo (t.buffer.getD []) with
      | error e => rw [halg] at ho; cases ho
      | ok c2 =>
        rw [halg] at ho
        dsimp only at ho
        by_cases hr : ratioExceeds c2.length (t.buffer.getD []).length opts.ratioMin
        · rw [if_pos hr] at ho
          rcases Outcome.reject.inj ho with rfl
          exact hr
        · rw [if_neg hr] at ho
          cases ho

theorem outcomeOf_output_compressed {env : Env} {opts : Options} {t : Task} {c : Bytes}
    (h : t.output = { source := none, compressed := some c }) :
    outcomeOf env opts t =
      (if ratioExceeds c.length (t.buffer.getD []).length opts.ratioMin then
        Outcome.reject c
      else Outcome.accept true c) := by
  unfold outcomeOf
  rw [h]

theorem tasks_key_name {env : Env} {opts : Options} {C : Cache} {as : List Asset} :
    ∀ u ∈ as.filterMap (mkTask env opts C), u.key.name = u.name := by
  intro u hu
  rcases List.mem_filterMap.mp hu with ⟨a, _, hma⟩
  have hk := (mkTask_inv hma).2.2.2.1
  have hn := (mkTask_inv hma).1
  rw [hk, hn]
  rfl

theorem tasks_mem_names {env : Env} {opts : Options} {C : Cache} {as : List Asset} :
    ∀ u ∈ as.filterMap (mkTask env opts C), u.name ∈ assetNames as := by
  intro u hu
  rcases List.mem_filterMap.mp hu with ⟨a, ha, hma⟩
  rw [(mkTask_inv hma).1]
  exact List.mem_map.mpr ⟨a, ha, rfl⟩

theorem outcome_fail_elim {env : Env} {opts : Options} {t : Task} {e : String}
    (ho : outcomeOf env opts t = Outcome.fail e) :
    t.output.source = none ∧ t.output.compressed = none ∧
    env.algo (t.buffer.getD []) = Except.error e := by
  unfold outcomeOf at ho
  cases hsrc : t.output.source with
  | some s => rw [hsrc] at ho; cases ho
  | none =>
    rw [hsrc] at ho
    cases hcomp : t.output.compressed with
    | some c2 =>
      rw [hcomp] at ho
      dsimp only at ho
      by_cases hr : ratioExceeds c2.length (t.buffer.getD []).length opts.ratioMin
      · rw [if_pos hr] at ho; cases ho
      · rw [if_neg hr] at ho; cases ho
    | none =>
      rw [hcomp] at ho
      dsimp only at ho
      cases halg : env.algo (t.buffer.getD []) with
      | error e2 =>
        rw [halg] at ho
        rcases Outcome.fail.inj ho with rfl
        exact ⟨rfl, rfl, rfl⟩
      | ok c2 =>
        rw [halg] at ho
        dsimp only at ho
        by_cases hr : ratioExceeds c2.length (t.buffer.getD []).length opts.ratioMin
        · rw [if_pos hr] at ho; cases ho
        · rw [if_neg hr] at ho; cases ho

theorem cacheEntry_eta (e : CacheEntry) : e = { source := e.source, compressed := e.compressed } :=
  rfl

theorem outcomeOf_output_none {env : Env} {opts : Options} {t : Task}
    (h : t.output = { source := none, compressed := none }) :
    outcomeOf env opts t =
      (match env.algo (t.buffer.getD []) with
       | Except.error e => Outcome.fail e
       | Except.ok c =>
         if ratioExceeds c.length (t.buffer.getD []).length opts.ratioMin then
           Outcome.reject c
         else Outcome.accept true c) := by
  unfold outcomeOf
  rw [h]

/-- C7: running the full compress pass twice over an unchanged asset set
yields identical derived asset names, identical derived content and no
duplicate relation entries - the second pass returns the asset store and
the cache exactly as the first pass left them - and any asset already
marked compressed or already carrying the computed relation name is
skipped by the filter phase before any compression work.  Hypotheses:
originals are kept (the default deleteOriginalAssets false), asset names
and cache keys are unique (both stores are keyed maps), and the filename
template produces fresh, collision-free derived names on this asset set. -/
theorem c7_pass_idempotent (env : Env) (opts : Options) (st : BuildState)
    (hdel : opts.deleteOriginalAssets = DeleteOriginalAssets.bool false)
    (hndA : (assetNames st.assets).Nodup)
    (hndC : (st.cache.map Prod.fst).Nodup)
    (hfresh : ∀ a ∈ st.assets, newFilenameOf env opts a.name ∉ assetNames st.assets)
    (hinj : ∀ a ∈ st.assets, ∀ b ∈ st.assets,
      newFilenameOf env opts a.name = newFilenameOf env opts b.name → a.name = b.name) :
    (compressPass env opts (compressPass env opts st)).assets =
      (compressPass env opts st).assets ∧
    (compressPass env opts (compressPass env opts st)).cache =
      (compressPass env opts st).cache ∧
    (∀ (cache : Cache) (a : Asset),
      (a.info.compressed = true ∨
        (List.lookup (relatedNameFor env.hashFn opts.algorithm opts.filename)
          a.info.related).isSome) →
      mkTask env opts cache a = none) := by
  have hndT : ((st.assets.filterMap (mkTask env opts st.cache)).map Task.name).Nodup :=
    @tasks_names_nodup env opts st.cache st.assets hndA
  have hmemT : ∀ u ∈ st.assets.filterMap (mkTask env opts st.cache),
      u.name ∈ assetNames st.assets := @tasks_mem_names env opts st.cache st.assets
  have hfreshT : ∀ u ∈ st.assets.filterMap (mkTask env opts st.cache),
      newFilenameOf env opts u.name ∉ assetNames st.assets := by
    intro u hu
    rcases List.mem_filterMap.mp hu with ⟨a, ha, hma⟩
    rw [(mkTask_inv hma).1]
    exact hfresh a ha
  have hinjT : ∀ u ∈ st.assets.filterMap (mkTask env opts st.cache),
      ∀ v ∈ st.assets.filterMap (mkTask env opts st.cache),
      newFilenameOf env opts u.name = newFilenameOf env opts v.name →
        u.name = v.name := by
    intro u hu v hv he
    rcases List.mem_filterMap.mp hu with ⟨a, ha, hma⟩
    rcases List.mem_filterMap.mp hv with ⟨b, hb, hmb⟩
    rw [(mkTask_inv hma).1] at he ⊢
    rw [(mkTask_inv hmb).1] at he ⊢
    exact hinj a ha b hb he
  have f1 : (compressPass env opts st).assets =
      annotAll env opts (st.assets.filterMap (mkTask env opts st.cache)) st.assets ++
        emitsOf env opts (st.assets.filterMap (mkTask env opts st.cache)) :=
    runTasks_shape hdel (st.assets.filterMap (mkTask env opts st.cache))
      st.assets st.cache st.errors hndA hndT hmemT hfreshT hinjT
  have f2 : ((compressPass env opts st).cache.map Prod.fst).Nodup :=
    runTasks_cache_keys_nodup (st.assets.filterMap (mkTask env opts st.cache)) st hndC
  have hnoop : ∀ t1 ∈ (compressPass env opts st).assets.filterMap
        (mkTask env opts (compressPass env opts st).cache),
      ∀ E : List String,
      (runTask env opts ⟨(compressPass env opts st).assets,
        (compressPass env opts st).cache, E⟩ t1).assets =
          (compressPass env opts st).assets ∧
      (runTask env opts ⟨(compressPass env opts st).assets,
        (compressPass env opts st).cache, E⟩ t1).cache =
          (compressPass env opts st).cache := by
    intro t1 ht1 E
    rcases List.mem_filterMap.mp ht1 with ⟨a2, ha2, hma2⟩
    rw [f1] at ha2
    rcases List.mem_append.mp ha2 with hA | hB
    · rcases List.mem_map.mp hA with ⟨a0, ha0, heq⟩
      rw [find_task_of_mkTask hndA ha0] at heq
      cases hm0 : mkTask env opts st.cache a0 with
      | none =>
        rw [hm0] at heq
        dsimp only at heq
        subst heq
        have hno : ∀ u ∈ st.assets.filterMap (mkTask env opts st.cache),
            u.name ≠ a0.name := by
          intro u hu
          have hfind : (st.assets.filterMap (mkTask env opts st.cache)).find?
              (fun u => u.name = a0.name) = none := by
            rw [find_task_of_mkTask hndA ha0, hm0]
          have := List.find?_eq_none.mp hfind u hu
          simpa using this
        have hEq : cacheLookup (compressPass env opts st).cache (cacheKeyOf opts a0) =
            cacheLookup st.cache (cacheKeyOf opts a0) :=
          runTasks_cache_other (st.assets.filterMap (mkTask env opts st.cache))
            (cacheKeyOf opts a0)
            (fun u hu hk => hno u hu (by
              have h1 := tasks_key_name u hu
              rw [hk] at h1
              exact h1.symm)) st
        rw [mkTask_cache_congr a0 hEq, hm0] at hma2
        cases hma2
      | some t0 =>
        rw [hm0] at heq
        dsimp only at heq
        obtain ⟨hn0, hs0, hi0, hk0, hr0, hc0, hm0b, hl0, hout0, hdisj0⟩ := mkTask_inv hm0
        have hfind : (st.assets.filterMap (mkTask env opts st.cache)).find?
            (fun u => u.name = a0.name) = some t0 := by
          rw [find_task_of_mkTask hndA ha0, hm0]
        rcases List.find?_eq_some.mp hfind with ⟨hpred, ts1, ts2, hts, hts1⟩
        have hts1names : ∀ u ∈ ts1, u.name ≠ a0.name := by
          intro u hu
          have := hts1 u hu
          simpa using this
        have hts2names : ∀ u ∈ ts2, u.name ≠ a0.name := by
          have hmapeq : (st.assets.filterMap (mkTask env opts st.cache)).map Task.name =
              ts1.map Task.name ++ t0.name :: ts2.map Task.name := by
            rw [hts]
            simp
          have hnd2 := hndT
          rw [hmapeq] at hnd2
          have hnotin : t0.name ∉ ts2.map Task.name := by
            rcases List.nodup_append.mp hnd2 with ⟨_, hcons, _⟩
            exact (List.nodup_cons.mp hcons).1
          intro u hu hun
          apply hnotin
          exact List.mem_map.mpr ⟨u, hu, by rw [hun, hn0]⟩
        have hkeys1 : ∀ u ∈ ts1, u.key ≠ t0.key := by
          intro u hu hk
          apply hts1names u hu
          have hmem : u ∈ st.assets.filterMap (mkTask env opts st.cache) := by
            rw [hts]
            exact List.mem_append_left _ hu
          have h1 := tasks_key_name u hmem
          rw [hk, hk0] at h1
          exact h1.symm
        have hkeys2 : ∀ u ∈ ts2, u.key ≠ t0.key := by
          intro u hu hk
          apply hts2names u hu
          have hmem : u ∈ st.assets.filterMap (mkTask env opts st.cache) := by
            rw [hts]
            exact List.mem_append_right _ (List.mem_cons_of_mem _ hu)
          have h1 := tasks_key_name u hmem
          rw [hk, hk0] at h1
          exact h1.symm
        have hcacheAt := @runTasks_cache_split env opts ts1 ts2 t0 st hkeys1 hkeys2
        rw [← hts] at hcacheAt
        cases ho : outcomeOf env opts t0 with
        | accept b src =>
          rw [ho] at heq
          dsimp only at heq
          have hrelated : (List.lookup
              (relatedNameFor env.hashFn opts.algorithm opts.filename)
              a2.info.related).isSome := by
            rw [← heq]
            show (List.lookup _ (relInsert a0.info.related t0.relatedName
              (newFilenameOf env opts t0.name))).isSome
            rw [hr0, relInsert_lookup_self]
            rfl
          rw [mkTask_none_of_marked env opts _ a2 (Or.inr hrelated)] at hma2
          cases hma2
        | fail e =>
          rw [ho] at heq
          dsimp only at heq
          subst heq
          rw [ho] at hcacheAt
          dsimp only at hcacheAt
          have hEq : cacheLookup (compressPass env opts st).cache (cacheKeyOf opts a0) =
              cacheLookup st.cache (cacheKeyOf opts a0) := by
            rw [← hk0]
            exact hcacheAt
          rw [mkTask_cache_congr a0 hEq, hm0] at hma2
          rcases Option.some.inj hma2 with rfl
          rw [runTask_eq, ho]
          exact ⟨rfl, rfl⟩
        | reject c =>
          rw [ho] at heq
          dsimp only at heq
          subst heq
          rw [ho] at hcacheAt
          dsimp only at hcacheAt
          obtain ⟨hn1, hs1, hi1, hk1, hr1, hc1, hm1b, hl1, hout1, hdisj1⟩ :=
            mkTask_inv hma2
          have hlook1 : cacheLookup (compressPass env opts st).cache
              (cacheKeyOf opts a0) = some { source := none, compressed := some c } := by
            rw [← hk0]
            exact hcacheAt
          have hout1e : t1.output = { source := none, compressed := some c } := by
            rw [hout1, hlook1]
            rfl
          rcases hdisj1 with ⟨hsome, _⟩ | ⟨_, hbuf1, _⟩
          · rw [hout1e] at hsome
            simp at hsome
          obtain ⟨hrs, hrr⟩ := outcome_reject_elim ho
          have ht0buf : t0.buffer = some a0.buffer := by
            rcases hdisj0 with ⟨hsome0, _⟩ | ⟨_, hb0, _⟩
            · rw [hrs] at hsome0
              simp at hsome0
            · exact hb0
          have hrr2 : ratioExceeds c.length a0.buffer.length opts.ratioMin = true := by
            rw [ht0buf] at hrr
            simpa using hrr
          have ho1 : outcomeOf env opts t1 = Outcome.reject c := by
            rw [outcomeOf_output_compressed hout1e, hbuf1]
            simp [hrr2]
          rw [runTask_eq, ho1]
          refine ⟨rfl, ?_⟩
          show cacheStore (compressPass env opts st).cache t1.key
              { source := none, compressed := some c } = (compressPass env opts st).cache
          apply cacheStore_self f2
          rw [hk1]
          exact hlook1
    · have hcomp := emitsOf_compressed a2 hB
      rw [mkTask_none_of_marked env opts _ a2 (Or.inl hcomp)] at hma2
      cases hma2
  have hmain := runTasks_noop ((compressPass env opts st).assets.filterMap
      (mkTask env opts (compressPass env opts st).cache))
    (compressPass env opts st).assets (compressPass env opts st).cache hnoop
    (compressPass env opts st).errors
  exact ⟨hmain.1, hmain.2, fun cache a h => mkTask_none_of_marked env opts cache a h⟩

theorem ratioExceeds_pos {c n : Nat} {r : ℚ} (hn : 0 < n) :
    ratioExceeds c n r = true ↔ (c : ℚ) / (n : ℚ) > r := by
  unfold ratioExceeds
  rw [if_neg (Nat.pos_iff_ne_zero.mp hn)]
  have hdiv : Rat.divInt (c : Int) (n : Int) = (c : ℚ) / (n : ℚ) := by
    rw [Rat.divInt_eq_div]
    push_cast
    rfl
  rw [hdiv]
  exact Iff.rfl

/-- C1: for a task whose compression completes with result c over a
buffer b, the ratio policy of afterCompress: when the exact quotient of
the lengths exceeds minRatio, the task stores only the raw compressed
bytes in the cache and the state is otherwise untouched (no emission,
no change to any asset); when the quotient is at most minRatio
(equality included), the full entry with the realized output source is
stored under the task identity and the derived asset carrying the
compressed bytes is emitted.  The buffer is nonempty (the JavaScript
float quotient is only faithfully the rational quotient then), and the
derived name is fresh for the emission conjunct. -/
theorem c1_ratio_policy (env : Env) (opts : Options) (st : BuildState) (t : Task)
    (b c : Bytes)
    (hbuf : t.buffer = some b)
    (hout : t.output = { source := none, compressed := none })
    (halg : env.algo b = Except.ok c) (hn : 0 < b.length) :
    (((c.length : ℚ) / (b.length : ℚ) > opts.ratioMin) →
      runTask env opts st t =
        { st with cache := cacheStore st.cache t.key (entryOnly c) }) ∧
    (((c.length : ℚ) / (b.length : ℚ) ≤ opts.ratioMin) →
      cacheLookup (runTask env opts st t).cache t.key = some (entryFull c) ∧
      (newFilenameOf env opts t.name ∉ assetNames st.assets →
        assetFind (runTask env opts st t).assets (newFilenameOf env opts t.name) =
          some (derivedOf env opts t c))) := by
  have hgetd : t.buffer.getD [] = b := by rw [hbuf]; rfl
  have ho0 : outcomeOf env opts t =
      (if ratioExceeds c.length b.length opts.ratioMin then Outcome.reject c
       else Outcome.accept true c) := by
    rw [outcomeOf_output_none hout, hgetd, halg]
  constructor
  · intro hgt
    have hr : ratioExceeds c.length b.length opts.ratioMin = true :=
      (ratioExceeds_pos hn).mpr hgt
    have ho : outcomeOf env opts t = Outcome.reject c := by
      rw [ho0, if_pos hr]
    rw [runTask_eq, ho]
    rfl
  · intro hle
    have hr : ¬ ratioExceeds c.length b.length opts.ratioMin = true := by
      intro habs
      exact absurd ((ratioExceeds_pos hn).mp habs) (not_lt.mpr hle)
    have ho : outcomeOf env opts t = Outcome.accept true c := by
      rw [ho0, if_neg hr]
    rw [runTask_eq, ho]
    dsimp only
    constructor
    · rw [emitPhase_cache]
      dsimp only
      rw [cacheLookup_store, if_pos rfl]
      rfl
    · intro hfr
      exact emitPhase_find_new env opts _ t c hfr

/-- Witness for C1 at a concrete reject and accept instance: a ten-byte
buffer compressed to nine bytes is rejected (0.9 above 0.8) and only the
raw bytes are cached, while compressed to one byte the full entry is
stored. -/
theorem c1_ratio_policy_witness :
    runTask exEnvReject exOpts exSt exTask =
      { exSt with cache := cacheStore exSt.cache exTask.key (entryOnly [1, 2, 3, 4, 5, 6, 7, 8, 9]) } ∧
    cacheLookup (runTask exEnvAccept exOpts exSt exTask).cache exTask.key =
      some (entryFull [1]) :=
  ⟨(c1_ratio_policy exEnvReject exOpts exSt exTask exBuf
      [1, 2, 3, 4, 5, 6, 7, 8, 9] rfl rfl rfl (by decide)).1
      (by norm_num [exOpts, exBuf, Rat.divInt_eq_div]),
   ((c1_ratio_policy exEnvAccept exOpts exSt exTask exBuf
      [1] rfl rfl rfl (by decide)).2
      (by norm_num [exOpts, exBuf, Rat.divInt_eq_div])).1⟩

/-- Counterexample for C2 as stated: with an always-false deletion
predicate the accepted asset is emitted (so this run is an accepted
run), the original remains, but - contrary to the claim - its metadata
gains no relation entry (its info is completely unchanged). -/
theorem c2_counterexample :
    assetFind (compressPass exEnvAccept exOptsPred exSt).assets "a.js.gz" =
      some { name := "a.js.gz", buffer := [1],
             info := { compressed := true, immutable := false, related := [] } } ∧
    assetFind (compressPass exEnvAccept exOptsPred exSt).assets "a.js" =
      some exAsset := by
  decide

/-- C2 amended: for an accepted asset under a deleteOriginalAssets
predicate returning false for its name, the original asset remains in
the store but is NOT annotated: the asset store is exactly the old
store plus the emitted derived asset, so every original asset,
including its relation metadata, is unchanged (the relation annotation
happens only when deleteOriginalAssets is the value false). -/
theorem c2_predicate_false_no_annotation (env : Env) (opts : Options)
    (st : BuildState) (t : Task) (p : String → Bool) (b : Bool) (src : Bytes)
    (hdel : opts.deleteOriginalAssets = DeleteOriginalAssets.fn p)
    (hp : p t.name = false)
    (ho : outcomeOf env opts t = Outcome.accept b src)
    (hfresh : assetFind st.assets (newFilenameOf env opts t.name) = none) :
    (runTask env opts st t).assets = st.assets ++ [derivedOf env opts t src] := by
  rw [runTask_eq, ho]
  cases b
  · exact emitPhase_pred_shape st t src hdel hp hfresh
  · dsimp only
    exact emitPhase_pred_shape _ t src hdel hp hfresh

/-- Witness for the amended C2 at the concrete accepted asset. -/
theorem c2_predicate_false_witness :
    exOptsPred.deleteOriginalAssets = DeleteOriginalAssets.fn (fun _ => false) ∧
    outcomeOf exEnvAccept exOptsPred exTask = Outcome.accept true [1] ∧
    (runTask exEnvAccept exOptsPred exSt exTask).assets =
      exSt.assets ++ [derivedOf exEnvAccept exOptsPred exTask [1]] :=
  ⟨rfl, by decide,
   c2_predicate_false_no_annotation exEnvAccept exOptsPred exSt exTask
     (fun _ => false) true [1] rfl rfl (by decide) (by decide)⟩

/-- Counterexample for C3 as stated: the cache holds a fully realized
output for the asset, the algorithm is one that always fails (so any
recompression would record an error), and yet the pass emits the
derived asset from the cache, annotates the original with the relation
entry - the asset is not returned unchanged - and records no error. -/
theorem c3_counterexample :
    assetFind (compressPass exEnvFail exOpts exStCached).assets "a.js.gz" =
      some { name := "a.js.gz", buffer := [9, 9],
             info := { compressed := true, immutable := false, related := [] } } ∧
    assetFind (compressPass exEnvFail exOpts exStCached).assets "a.js" =
      some { name := "a.js", buffer := exBuf,
             info := { compressed := false, immutable := false,
                       related := [("gzipped", "a.js.gz")] } } ∧
    (compressPass exEnvFail exOpts exStCached).errors = [] := by
  decide

/-- C3 amended: when the cached entry holds a realized output source,
the scheduler skips recompression - the task is exactly the emission
phase, its result does not depend on the compression algorithm at all,
and nothing is written to the cache - but the asset is not skipped: the
cached output source is emitted as the derived asset and the
original-asset disposition still applies. -/
theorem c3_cached_source_emits (env : Env) (opts : Options) (st : BuildState)
    (t : Task) (s : Bytes) (hsrc : t.output.source = some s) :
    runTask env opts st t = emitPhase env opts st t s ∧
    (∀ f : Bytes → Except String Bytes,
      runTask { env with algo := f } opts st t = runTask env opts st t) ∧
    (runTask env opts st t).cache = st.cache ∧
    (newFilenameOf env opts t.name ∉ assetNames st.assets →
      assetFind (runTask env opts st t).assets (newFilenameOf env opts t.name) =
        some (derivedOf env opts t s)) := by
  have hrun : ∀ env2 : Env, runTask env2 opts st t = emitPhase env2 opts st t s := by
    intro env2
    unfold runTask
    rw [hsrc]
  refine ⟨hrun env, ?_, ?_, ?_⟩
  · intro f
    rw [hrun { env with algo := f }, hrun env]
    rfl
  · rw [hrun env]
    exact emitPhase_cache env opts st t s
  · intro hfr
    rw [hrun env]
    exact emitPhase_find_new env opts st t s hfr

/-- Witness for the amended C3 at the concrete cached task under the
always-failing algorithm. -/
theorem c3_cached_source_witness :
    exTaskCached.output.source = some [9, 9] ∧
    (runTask exEnvFail exOpts exStCached exTaskCached).cache = exStCached.cache :=
  ⟨rfl, (c3_cached_source_emits exEnvFail exOpts exStCached exTaskCached
    [9, 9] rfl).2.2.1⟩

/-- C4: an algorithm failure for one scheduled task is recorded as a
build-level error on the compilation, that task yields no derived
output and no cache write, and sibling tasks before and after it are
unaffected: the pass produces exactly the assets and cache it would
have produced without the failed task, with the error in the error
list.  The fold over the full task list is total, modelling that
Promise.all resolves only after every scheduled task has settled. -/
theorem c4_isolated_failure (env : Env) (opts : Options) (st : BuildState)
    (ts1 ts2 : List Task) (t : Task) (e : String)
    (hout : t.output = { source := none, compressed := none })
    (halg : env.algo (t.buffer.getD []) = Except.error e) :
    (runTasks env opts st (ts1 ++ t :: ts2)).assets =
      (runTasks env opts st (ts1 ++ ts2)).assets ∧
    (runTasks env opts st (ts1 ++ t :: ts2)).cache =
      (runTasks env opts st (ts1 ++ ts2)).cache ∧
    e ∈ (runTasks env opts st (ts1 ++ t :: ts2)).errors := by
  have hfail : ∀ s : BuildState,
      runTask env opts s t = { s with errors := s.errors ++ [e] } := by
    intro s
    unfold runTask
    rw [hout]
    dsimp only
    rw [halg]
  rw [runTasks_append, runTasks_append, runTasks_cons, hfail]
  have heta : runTasks env opts st ts1 =
      ⟨(runTasks env opts st ts1).assets, (runTasks env opts st ts1).cache,
       (runTasks env opts st ts1).errors⟩ := rfl
  rw [heta]
  rw [runTasks_split env opts ts2 (runTasks env opts st ts1).assets
    (runTasks env opts st ts1).cache ((runTasks env opts st ts1).errors ++ [e])]
  rw [runTasks_split env opts ts2 (runTasks env opts st ts1).assets
    (runTasks env opts st ts1).cache (runTasks env opts st ts1).errors]
  refine ⟨rfl, rfl, ?_⟩
  simp

/-- Witness for C4 at a concrete failing task under the always-failing
algorithm. -/
theorem c4_isolated_failure_witness :
    (runTasks exEnvFail exOpts exSt ([] ++ exTask :: [])).assets =
      (runTasks exEnvFail exOpts exSt ([] ++ [])).assets ∧
    (runTasks exEnvFail exOpts exSt ([] ++ exTask :: [])).cache =
      (runTasks exEnvFail exOpts exSt ([] ++ [])).cache ∧
    "boom" ∈ (runTasks exEnvFail exOpts exSt ([] ++ exTask :: [])).errors :=
  c4_isolated_failure exEnvFail exOpts exSt [] [] exTask "boom" rfl rfl

/-- C5: construction with a named algorithm that is not found in zlib
throws the configuration error at construction time, before any asset
is processed (construct runs before the compress pass can exist); a
named algorithm found in zlib, a function algorithm, and the absent
algorithm (defaulting to gzip) all construct successfully. -/
theorem c5_unknown_algorithm (o : RawOptions) :
    (∀ s, o.algorithm = some (Algorithm.name s) → s ∉ zlibMembers →
      construct o =
        Except.error ("Algorithm \"" ++ s ++ "\" is not found in \"zlib\"")) ∧
    (∀ s, o.algorithm = some (Algorithm.name s) → s ∈ zlibMembers →
      ∃ p : Plugin, construct o = Except.ok p) ∧
    (∀ tag, o.algorithm = some (Algorithm.fn tag) →
      ∃ p : Plugin, construct o = Except.ok p) ∧
    (o.algorithm = none → ∃ p : Plugin, construct o = Except.ok p) := by
  refine ⟨?_, ?_, ?_, ?_⟩
  · intro s h hmem
    simp only [construct, h, Option.getD_some]
    rw [if_neg hmem]
  · intro s h hmem
    simp only [construct, h, Option.getD_some]
    rw [if_pos hmem]
    exact ⟨_, rfl⟩
  · intro tag h
    simp only [construct, h, Option.getD_some]
    exact ⟨_, rfl⟩
  · intro h
    simp only [construct, h, Option.getD_none]
    rw [if_pos (show "gzip" ∈ zlibMembers by decide)]
    exact ⟨_, rfl⟩

/-- Witness for C5: the unknown name nope fails with the zlib error,
the known name gzip and a function algorithm construct successfully. -/
theorem c5_unknown_algorithm_witness :
    ("nope" ∉ zlibMembers ∧
     construct { RawOptions.empty with algorithm := some (Algorithm.name "nope") } =
       Except.error ("Algorithm \"" ++ "nope" ++ "\" is not found in \"zlib\"")) ∧
    ("gzip" ∈ zlibMembers ∧
     (construct { RawOptions.empty with
        algorithm := some (Algorithm.name "gzip") }).isOk = true) ∧
    (construct { RawOptions.empty with
        algorithm := some (Algorithm.fn "f") }).isOk = true :=
  ⟨⟨by decide, (c5_unknown_algorithm _).1 "nope" rfl (by decide)⟩,
   ⟨by decide, by
      rcases (c5_unknown_algorithm { RawOptions.empty with
          algorithm := some (Algorithm.name "gzip") }).2.1 "gzip" rfl (by decide) with ⟨p, hp⟩
      rw [hp]
      rfl⟩,
   by
     rcases (c5_unknown_algorithm { RawOptions.empty with
         algorithm := some (Algorithm.fn "f") }).2.2.1 "f" rfl with ⟨p, hp⟩
     rw [hp]
     rfl⟩

/-- C6: the relation-name derivation of the compress method is the
total function of the configuration the specification describes, case
by case: hash-derived name for function algorithm with function
filename, query-stripped extension suffixed ed for function algorithm
with string filename, the literal gzipped for the gzip name, and the
name suffixed ed for every other named algorithm.  As a pure function
of the configuration it is identical across runs. -/
theorem c6_relation_name (hashFn : String → String) (a : Algorithm) (f : Filename) :
    relatedNameFor hashFn a f = relatedNameSpec hashFn a f ∧
    (∀ tag tag2, relatedNameFor hashFn (Algorithm.fn tag) (Filename.fn tag2) =
      "compression-function-" ++ hashFn tag2) ∧
    (∀ tag s, relatedNameFor hashFn (Algorithm.fn tag) (Filename.str s) =
      String.mk ((extname (stripQuery s)).data.drop 1) ++ "ed") ∧
    relatedNameFor hashFn (Algorithm.name "gzip") f = "gzipped" ∧
    (∀ s, s ≠ "gzip" → relatedNameFor hashFn (Algorithm.name s) f = s ++ "ed") := by
  refine ⟨?_, fun tag tag2 => rfl, fun tag s => rfl, rfl, fun s hs => ?_⟩
  · cases a with
    | fn tag =>
      cases f with
      | str s => rfl
      | fn t2 => rfl
    | name s => rfl
  · unfold relatedNameFor
    dsimp only
    rw [if_neg hs]

/-- Witness for C6 at a non-gzip named algorithm. -/
theorem c6_relation_name_witness :
    relatedNameFor (fun x => x) (Algorithm.name "brotliCompress")
      (Filename.str "[path][base].br") =
      relatedNameSpec (fun x => x) (Algorithm.name "brotliCompress")
        (Filename.str "[path][base].br") ∧
    ("brotliCompress" : String) ≠ "gzip" ∧
    relatedNameFor (fun x => x) (Algorithm.name "brotliCompress")
      (Filename.str "[path][base].br") = "brotliCompress" ++ "ed" :=
  ⟨(c6_relation_name (fun x => x) (Algorithm.name "brotliCompress")
      (Filename.str "[path][base].br")).1,
   by decide,
   (c6_relation_name (fun x => x) (Algorithm.name "brotliCompress")
      (Filename.str "[path][base].br")).2.2.2.2 "brotliCompress" (by decide)⟩

theorem lookup_filter_keys {α β : Type} [DecidableEq α] (b a : List (α × β)) (k : α)
    (hk : List.lookup k a = none) :
    List.lookup k (b.filter (fun p => (List.lookup p.1 a).isNone)) =
      List.lookup k b := by
  induction b with
  | nil => rfl
  | cons p b ih =>
    rcases p with ⟨pk, pv⟩
    rw [List.filter_cons]
    by_cases hp : pk = k
    · subst hp
      rw [if_pos (by simp [hk])]
      simp [List.lookup_cons]
    · have hb : (k == pk) = false := beq_eq_false_iff_ne.mpr (Ne.symm hp)
      by_cases hcond : (List.lookup pk a).isNone
      · rw [if_pos (by simpa using hcond)]
        simp [List.lookup_cons, hb, ih]
      · rw [if_neg (by simpa using hcond)]
        simp [List.lookup_cons, hb, ih]

theorem lookup_spread_left {b : COpts} (a : COpts) (k : String) :
    List.lookup k (a.map (fun p => match List.lookup p.1 b with
      | some v => (p.1, v)
      | none => p)) =
      (List.lookup k a).map (fun v => (List.lookup k b).getD v) := by
  induction a with
  | nil => rfl
  | cons p a ih =>
    rcases p with ⟨pk, pv⟩
    by_cases hp : pk = k
    · subst hp
      cases hb : List.lookup pk b with
      | some w => simp [List.lookup_cons, hb]
      | none => simp [List.lookup_cons, hb]
    · have hbq : (k == pk) = false := beq_eq_false_iff_ne.mpr (Ne.symm hp)
      cases hb : List.lookup pk b with
      | some w => simp [List.lookup_cons, hb, hbq, ih]
      | none => simp [List.lookup_cons, hb, hbq, ih]

theorem jsSpread_lookup (a b : COpts) (k : String) :
    List.lookup k (jsSpread a b) =
      Option.or (List.lookup k b) (List.lookup k a) := by
  unfold jsSpread
  rw [List.lookup_append, lookup_spread_left]
  cases ha : List.lookup k a with
  | none =>
    rw [lookup_filter_keys b a k ha]
    simp
  | some v =>
    cases hb : List.lookup k b with
    | none => simp
    | some w => simp

/-- C8: the constructor merges the algorithm-specific default tuning
options - best-compression level 9 for gzip, deflate and deflateRaw,
maximum brotli quality 11 for brotliCompress, and nothing for any other
name - under the caller-supplied compressionOptions with a shallow
merge where caller keys win: every key of the resolved options resolves
to the caller value when present and to the default otherwise. -/
theorem c8_default_option_merge (s : String) (o : RawOptions) :
    (defaultCompressionOptions "gzip" = [("level", OptValue.num 9)] ∧
     defaultCompressionOptions "deflate" = [("level", OptValue.num 9)] ∧
     defaultCompressionOptions "deflateRaw" = [("level", OptValue.num 9)] ∧
     defaultCompressionOptions "brotliCompress" =
       [("params", OptValue.params [(1, 11)])]) ∧
    (s ≠ "gzip" → s ≠ "deflate" → s ≠ "deflateRaw" → s ≠ "brotliCompress" →
      defaultCompressionOptions s = []) ∧
    (∀ p : Plugin, o.algorithm = some (Algorithm.name s) →
      construct o = Except.ok p →
      ∀ k, List.lookup k p.options.compressionOptions =
        Option.or (List.lookup k (o.compressionOptions.getD []))
          (List.lookup k (defaultCompressionOptions s))) := by
  refine ⟨⟨rfl, rfl, rfl, rfl⟩, ?_, ?_⟩
  · intro h1 h2 h3 h4
    unfold defaultCompressionOptions
    rw [if_neg h1, if_neg h2, if_neg h3, if_neg h4]
  · intro p h hok k
    simp only [construct, h, Option.getD_some] at hok
    by_cases hmem : s ∈ zlibMembers
    · rw [if_pos hmem] at hok
      rcases Except.ok.inj hok with rfl
      exact jsSpread_lookup (defaultCompressionOptions s) (o.compressionOptions.getD []) k
    · rw [if_neg hmem] at hok
      cases hok

/-- Witness for C8: a brotliCompress plugin where the caller overrides
the params key. -/
theorem c8_default_option_merge_witness :
    construct exRawBrotli = Except.ok exPluginBrotli ∧
    List.lookup "params" exPluginBrotli.options.compressionOptions =
      Option.or (List.lookup "params" (exRawBrotli.compressionOptions.getD []))
        (List.lookup "params" (defaultCompressionOptions "brotliCompress")) :=
  ⟨rfl,
   (c8_default_option_merge "brotliCompress" exRawBrotli).2.2 exPluginBrotli
     rfl rfl "params"⟩

theorem takeWhile_all {p : Char → Bool} :
    ∀ l : List Char, (∀ x ∈ l, p x = true) → l.takeWhile p = l := by
  intro l
  induction l with
  | nil => intro _; rfl
  | cons x l ih =>
    intro h
    rw [List.takeWhile_cons, if_pos (h x (List.mem_cons_self x l))]
    rw [ih (fun y hy => h y (List.mem_cons_of_mem x hy))]

theorem takeWhile_append_stop {p : Char → Bool} :
    ∀ (l1 : List Char) (c : Char) (l2 : List Char),
    (∀ x ∈ l1, p x = true) → p c = false →
    (l1 ++ c :: l2).takeWhile p = l1 := by
  intro l1
  induction l1 with
  | nil =>
    intro c l2 _ hc
    rw [List.nil_append, List.takeWhile_cons, if_neg (by simp [hc])]
  | cons x l1 ih =>
    intro c l2 h hc
    rw [List.cons_append, List.takeWhile_cons,
        if_pos (h x (List.mem_cons_self x l1)),
        ih c l2 (fun y hy => h y (List.mem_cons_of_mem x hy)) hc]

theorem stripQuery_append_query {base query : String} (h : '?' ∉ base.data) :
    stripQuery (base ++ "?" ++ query) = base := by
  unfold stripQuery
  have hdata : (base ++ "?" ++ query).data = base.data ++ '?' :: query.data := by
    cases base with
    | mk d =>
      cases query with
      | mk d2 =>
        show (d ++ ['?']) ++ d2 = d ++ '?' :: d2
        simp
  rw [hdata, takeWhile_append_stop base.data '?' query.data
      (fun x hx => by
        simp only [decide_eq_true_eq]
        exact fun he => h (he ▸ hx))
      (by simp)]

theorem stripQuery_no_query {s : String} (h : '?' ∉ s.data) :
    stripQuery s = s := by
  unfold stripQuery
  rw [takeWhile_all s.data (fun x hx => by
    simp only [decide_eq_true_eq]
    exact fun he => h (he ▸ hx))]

/-- C9: for a function algorithm and a string filename containing a
question mark, the relation name is derived from the extension of the
prefix before the first question mark: appending a query suffix to a
query-free filename template does not change the relation name. -/
theorem c9_query_stripped (hashFn : String → String) (atag : String)
    (base query : String) (hq : '?' ∉ base.data) :
    relatedNameFor hashFn (Algorithm.fn atag)
        (Filename.str (base ++ "?" ++ query)) =
      relatedNameFor hashFn (Algorithm.fn atag) (Filename.str base) := by
  unfold relatedNameFor
  dsimp only
  rw [stripQuery_append_query hq, stripQuery_no_query hq]

/-- Witness for C9 at the concrete pair of gz templates. -/
theorem c9_query_stripped_witness :
    ('?' ∉ "[path][base].gz".data) ∧
    relatedNameFor (fun x => x) (Algorithm.fn "f")
        (Filename.str ("[path][base].gz" ++ "?" ++ "v=1")) =
      relatedNameFor (fun x => x) (Algorithm.fn "f")
        (Filename.str "[path][base].gz") :=
  ⟨by decide,
   c9_query_stripped (fun x => x) "f" "[path][base].gz" "v=1" (by decide)⟩

/-- C10: when the cache already holds a fully realized output source
for an eligible asset, the filter phase produces the task without
reading the buffer (the buffer field stays empty) and without checking
the threshold (the same task results for every threshold value), and
running that task emits the derived asset from the cached source - in
particular an asset whose byte length is below the threshold still
yields a derived asset. -/
theorem c10_cached_source_bypass (env : Env) (opts : Options) (cache : Cache)
    (a : Asset) (entry : CacheEntry) (s : Bytes)
    (hnc : a.info.compressed = false)
    (hmatch : env.matchObj a.name = true)
    (hrel : List.lookup (relatedNameFor env.hashFn opts.algorithm opts.filename)
      a.info.related = none)
    (hc : cacheLookup cache (cacheKeyOf opts a) = some entry)
    (hs : entry.source = some s) :
    mkTask env opts cache a =
      some { name := a.name, source := a.buffer, info := a.info, buffer := none,
             output := entry, key := cacheKeyOf opts a,
             relatedName :=
               relatedNameFor env.hashFn opts.algorithm opts.filename } ∧
    (∀ th : Nat, mkTask env { opts with threshold := th } cache a =
      mkTask env opts cache a) ∧
    (∀ st : BuildState, newFilenameOf env opts a.name ∉ assetNames st.assets →
      assetFind (runTask env opts st
          { name := a.name, source := a.buffer, info := a.info, buffer := none,
            output := entry, key := cacheKeyOf opts a,
            relatedName :=
              relatedNameFor env.hashFn opts.algorithm opts.filename }).assets
        (newFilenameOf env opts a.name) =
        some (derivedOf env opts
          { name := a.name, source := a.buffer, info := a.info, buffer := none,
            output := entry, key := cacheKeyOf opts a,
            relatedName :=
              relatedNameFor env.hashFn opts.algorithm opts.filename } s)) := by
  have hmk : ∀ opts2 : Options, opts2.algorithm = opts.algorithm →
      opts2.compressionOptions = opts.compressionOptions →
      opts2.filename = opts.filename →
      mkTask env opts2 cache a =
        some { name := a.name, source := a.buffer, info := a.info, buffer := none,
               output := entry, key := cacheKeyOf opts a,
               relatedName :=
                 relatedNameFor env.hashFn opts.algorithm opts.filename } := by
    intro opts2 h1 h2 h3
    have hkey : cacheKeyOf opts2 a = cacheKeyOf opts a := by
      unfold cacheKeyOf
      rw [h1, h2]
    unfold mkTask
    rw [if_neg (by simp [hnc]), if_neg (by simp [hmatch]), h1, h3, hkey]
    rw [if_neg (by simp [hrel])]
    unfold cacheLookup at hc
    unfold cacheLookup
    dsimp only
    rw [hc, Option.getD_some]
    rw [if_pos (by simp [hs])]
  refine ⟨hmk opts rfl rfl rfl, fun th => ?_, fun st hfr => ?_⟩
  · rw [hmk { opts with threshold := th } rfl rfl rfl, hmk opts rfl rfl rfl]
  · have ho : outcomeOf env opts
        { name := a.name, source := a.buffer, info := a.info, buffer := none,
          output := entry, key := cacheKeyOf opts a,
          relatedName :=
            relatedNameFor env.hashFn opts.algorithm opts.filename } =
        Outcome.accept false s := by
      unfold outcomeOf
      dsimp only
      rw [hs]
    rw [runTask_eq, ho]
    exact emitPhase_find_new env opts st _ s hfr

/-- Witness for C10 at the concrete cached asset with a threshold far
above its size and an always-failing algorithm. -/
theorem c10_cached_source_bypass_witness :
    mkTask exEnvFail exOpts exStCached.cache exAsset = some exTaskCached ∧
    mkTask exEnvFail { exOpts with threshold := 100 } exStCached.cache exAsset =
      mkTask exEnvFail exOpts exStCached.cache exAsset ∧
    assetFind (runTask exEnvFail exOpts exSt exTaskCached).assets
        (newFilenameOf exEnvFail exOpts exAsset.name) =
      some (derivedOf exEnvFail exOpts exTaskCached [9, 9]) := by
  have h := c10_cached_source_bypass exEnvFail exOpts exStCached.cache exAsset
    { source := some [9, 9], compressed := some [9, 9] } [9, 9]
    rfl rfl rfl rfl rfl
  exact ⟨h.1, h.2.1 100, h.2.2 exSt (by decide)⟩

/-- Witness for C7 at the concrete one-asset store with the accepting
algorithm. -/
theorem c7_pass_idempotent_witness :
    (compressPass exEnvAccept exOpts (compressPass exEnvAccept exOpts exSt)).assets =
      (compressPass exEnvAccept exOpts exSt).assets ∧
    (compressPass exEnvAccept exOpts (compressPass exEnvAccept exOpts exSt)).cache =
      (compressPass exEnvAccept exOpts exSt).cache := by
  have h := c7_pass_idempotent exEnvAccept exOpts exSt rfl (by decide) (by decide)
    (by decide) (by decide)
  exact ⟨h.1, h.2.1⟩

end CompressionPlugin
